import Mathlib

/-!
# grpcmcp: descriptor linkage, tool projection and the invocation handler

A shallow embedding of `src/main.go`.  Go maps are association lists (or lists
of keys), a Go `panic` is an `Except` error, and state that Go mutates in place
(`seen`, `*ds`, the registry, the tools of the server) is passed along.

The calls into libraries are modelled as follows.
* `http.Header` (`Set`, `Add`, `Del`): a map from canonical names to value lists, the
  canonical form of a name being a parameter.
* `json.Marshal`, `protojson` and `connect.Client.CallUnary` in the handler: parameters
  that return a value or the message of an error.
* `protodesc.NewFile`: the resolution of the dependencies of a file against the
  registry; a dependency that is not registered is an error.
* `protoregistry.Files`: the list of registered files, looked up by path.  `RegisterFile`
  refuses a file whose path is registered or whose package or declarations clash with
  the names the registry holds; main.go drops the error it returns.
* `proto.Unmarshal`: resets its destination, then decodes.
* `srv.AddTool`: the calls are recorded in order; the server keeps one tool for a name,
  a later call replacing the tool of an earlier one.
-/

namespace Grpcmcp

/-! ## Data model (descriptorpb) -/

/-- descriptorpb.MethodDescriptorProto: the method name and its two streaming flags. -/
structure MethodDescriptorProto where
  name : String
  clientStreaming : Bool
  serverStreaming : Bool
  deriving DecidableEq, Repr

/-- descriptorpb.ServiceDescriptorProto: the service name and its methods, in order. -/
structure ServiceDescriptorProto where
  name : String
  method : List MethodDescriptorProto
  deriving DecidableEq, Repr

/-- descriptorpb.FileDescriptorProto: file name (its path), package, the names of the
files it depends on, its services, and in `messageType` the names of its other
top-level declarations (messages, enums, the values of those enums, extensions), each by
its name relative to the package. -/
structure FileDescriptorProto where
  name : String
  package : String
  dependency : List String
  messageType : List String
  service : List ServiceDescriptorProto
  deriving DecidableEq, Repr

/-! ## topSort (main.go 87-100) and its driver loop (main.go 193-198) -/

/-- Why a run of the model stopped without a value: a Go `panic` with its message,
or the recursion budget of the model ran out. -/
inductive Fault where
  | panic (msg : String)
  | fuel
  deriving DecidableEq, Repr

/-- The two mutable arguments of `topSort`: the `seen` set (the newest name first)
and the output slice `*ds`. -/
structure SortState where
  seen : List String
  ds : List FileDescriptorProto
  deriving DecidableEq, Repr

/-- The map index `all[dep]`: the name-keyed map is the list of its values, and the
key of a value is its name (`all[d.GetName()] = d`, main.go 186). -/
def lookup (all : List FileDescriptorProto) (dep : String) : Option FileDescriptorProto :=
  all.find? (fun d => d.name == dep)

/-- The loop `for _, dep := range d.GetDependency()` of `topSort` (main.go 92-98), with
the recursive call passed in as `visit`. -/
def visitDeps (visit : FileDescriptorProto → SortState → Except Fault SortState)
    (all : List FileDescriptorProto) : List String → SortState → Except Fault SortState
  | [], st => .ok st
  | dep :: rest, st =>
    match lookup all dep with
    | none => .error (.panic ("not found: " ++ dep))
    | some v =>
      match visit v st with
      | .ok st1 => visitDeps visit all rest st1
      | .error e => .error e

/-- The function `topSort` (main.go 87-100).  The first argument bounds the depth of
the recursion. -/
def topSort : Nat → List FileDescriptorProto → FileDescriptorProto → SortState →
    Except Fault SortState
  | 0, _, _, _ => .error .fuel
  | fuel + 1, all, d, st =>
    if d.name ∈ st.seen then .ok st
    else
      match visitDeps (topSort fuel all) all d.dependency
          { seen := d.name :: st.seen, ds := st.ds } with
      | .ok st1 => .ok { seen := st1.seen, ds := st1.ds ++ [d] }
      | .error e => .error e

/-- The loop `for _, d := range all { topSort(d, all, seen, &ds) }` (main.go 195-197),
run over the entries in the sequence `order`. -/
def sortLoop (fuel : Nat) (all : List FileDescriptorProto) :
    List FileDescriptorProto → SortState → Except Fault SortState
  | [], st => .ok st
  | d :: rest, st =>
    match topSort fuel all d st with
    | .ok st1 => sortLoop fuel all rest st1
    | .error e => .error e

/-- Lines 193-198 of main.go: `seen` and `ds` start empty, every entry of the map is
passed to `topSort` in the iteration order `order`, the result is `ds`.  The recursion
budget is one more than the number of entries. -/
def linkageOrder (order all : List FileDescriptorProto) :
    Except Fault (List FileDescriptorProto) :=
  match sortLoop (all.length + 1) all order { seen := [], ds := [] } with
  | .ok st => .ok st.ds
  | .error e => .error e

/-! ### Graph vocabulary -/

/-- The keys of the map: the names of its descriptors. -/
def names (l : List FileDescriptorProto) : List String := l.map (fun d => d.name)

/-- The dependency graph is closed: every dependency name is a key of the map. -/
def Closed (all : List FileDescriptorProto) : Prop :=
  ∀ d ∈ all, ∀ dep ∈ d.dependency, dep ∈ names all

/-- An edge of the dependency graph: a descriptor named `a` lists `b` as a dependency. -/
def DependsOn (all : List FileDescriptorProto) (a b : String) : Prop :=
  ∃ d ∈ all, d.name = a ∧ b ∈ d.dependency

/-- The dependency graph is acyclic: no name reaches itself along one or more edges. -/
def Acyclic (all : List FileDescriptorProto) : Prop :=
  ∀ n, ¬ Relation.TransGen (DependsOn all) n n

/-- The names marked seen whose descriptor is not yet in the output: the descriptors
whose `topSort` call is still running. -/
def InProgress (st : SortState) (n : String) : Prop :=
  n ∈ st.seen ∧ n ∉ names st.ds

/-- The invariant of the sort state. -/
structure Inv (all : List FileDescriptorProto) (st : SortState) : Prop where
  seenNodup : st.seen.Nodup
  dsNodup : (names st.ds).Nodup
  dsSeen : ∀ n ∈ names st.ds, n ∈ st.seen
  seenKeys : ∀ n ∈ st.seen, n ∈ names all
  dsClosed : ∀ x ∈ st.ds, x ∈ all ∧ ∀ dep ∈ x.dependency, dep ∈ names all

/-- What one finished call (or loop) has done to the state. -/
structure Post (all : List FileDescriptorProto) (st st1 : SortState) : Prop where
  inv : Inv all st1
  seenMono : ∀ n ∈ st.seen, n ∈ st1.seen
  dsMono : ∀ n ∈ names st.ds, n ∈ names st1.ds
  inProgress : ∀ n, InProgress st1 n ↔ InProgress st n

/-- Every descriptor of the list comes after all the descriptors it depends on. -/
def DepOrdered (ds : List FileDescriptorProto) : Prop :=
  ∀ pre x post, ds = pre ++ x :: post → ∀ dep ∈ x.dependency, dep ∈ names pre

instance (all : List FileDescriptorProto) : Decidable (Closed all) :=
  inferInstanceAs (Decidable (∀ d ∈ all, ∀ dep ∈ d.dependency, dep ∈ names all))

/-! ### Sample maps -/

def cycX : FileDescriptorProto := ⟨"x.proto", "p", ["y.proto"], [], []⟩
def cycY : FileDescriptorProto := ⟨"y.proto", "p", ["x.proto", "y.proto"], [], []⟩

/-- A rank under which every dependency of `fA`, `fB`, `fC` ranks below its dependent. -/
def sampleRank (n : String) : Nat :=
  if n = "a.proto" then 0 else if n = "b.proto" then 1 else 2

def fA : FileDescriptorProto := ⟨"a.proto", "p", [], [], []⟩
def fB : FileDescriptorProto := ⟨"b.proto", "p", ["a.proto"], [], []⟩
def fC : FileDescriptorProto := ⟨"c.proto", "p", ["b.proto", "a.proto"], [], []⟩

/-! ## http.Header and the header merge of toolHandler (main.go 43-55) -/

/-- The type `http.Header`, a `map[string][]string`, as an association list with at
most one entry for a key. -/
abbrev Header := List (String × List String)

/-- The map index `h[k]`; the nil slice of a missing key is the empty list. -/
def Header.values (h : Header) (k : String) : List String :=
  (h.lookup k).getD []

/-- The names that have an entry in the map. -/
def Header.keys (h : Header) : List String := h.map (fun e => e.1)

/-- The method `Header.Del`: removes the entry of the canonical form of the key.
`canon` stands for `textproto.CanonicalMIMEHeaderKey`. -/
def Header.del (canon : String → String) (h : Header) (k : String) : Header :=
  h.filter (fun e => e.1 != canon k)

/-- The method `Header.Set`: the entry of the canonical key becomes the one value. -/
def Header.set (canon : String → String) (h : Header) (k v : String) : Header :=
  (canon k, [v]) :: h.filter (fun e => e.1 != canon k)

/-- The method `Header.Add`: appends the value to the entry of the canonical key. -/
def Header.add (canon : String → String) (h : Header) (k v : String) : Header :=
  (canon k, h.values (canon k) ++ [v]) :: h.filter (fun e => e.1 != canon k)

/-- The body of `for k, v := range headers` (main.go 45-54) for one entry. -/
def mergeEntry (canon : String → String) (req : Header) (e : String × List String) :
    Header :=
  match e.2 with
  | [v0] => Header.set canon req e.1 v0
  | v => v.foldl (fun h v2 => Header.add canon h e.1 v2) (Header.del canon req e.1)

/-- Lines 44-55 of main.go: the configured `headers`, visited in the order of the list,
are merged onto the header `req` of the request. -/
def mergeHeaders (canon : String → String) (headers req : Header) : Header :=
  if headers.length > 0 then headers.foldl (mergeEntry canon) req else req

/-! ## The configured header set (main.go 102-140) -/

/-- The call `strings.Cut(s, ":")` on the characters of `s`: the text before and after
the first colon, `none` when there is no colon. -/
def cutColon : List Char → Option (List Char × List Char)
  | [] => none
  | c :: cs =>
    if c = ':' then some ([], cs)
    else
      match cutColon cs with
      | none => none
      | some (before, after) => some (c :: before, after)

/-- The method `headerFlags.Set` (main.go 108-116), called once for each `-header` flag:
the value is cut at its first colon and added with the leading blanks of the value part
removed; the error is returned when there is no colon. -/
def headerFlagsSet (canon : String → String) (h : Header) (value : String) :
    Except String Header :=
  match cutColon value.data with
  | none => .error "err invalid header format: expecting `key: value`"
  | some (k, v) =>
    .ok (Header.add canon h (String.mk k) (String.mk (v.dropWhile (fun c => c = ' '))))

/-- The flags `-header`, in order, from the empty header set of main.go 119. -/
def headerFlagsAll (canon : String → String) : List String → Header → Except String Header
  | [], h => .ok h
  | value :: rest, h =>
    match headerFlagsSet canon h value with
    | .ok h1 => headerFlagsAll canon rest h1
    | .error e => .error e

/-- Lines 119-140 of main.go: the header set built from the `-header` flags and the
bearer token; `env` is `os.LookupEnv`. -/
def configuredHeaders (canon : String → String) (flags : List String)
    (bearer bearerEnv : String) (env : String → Option String) : Except String Header :=
  match headerFlagsAll canon flags [] with
  | .error e => .error e
  | .ok h =>
    let bearer1 := if bearerEnv ≠ "" then (env bearerEnv).getD "" else bearer
    if bearer1 ≠ "" then .ok (Header.set canon h "Authorization" ("Bearer " ++ bearer1))
    else .ok h

/-- A header set as `Add` and `Set` leave it: one entry for a name, every name in its
canonical form. -/
def Header.WellFormed (canon : String → String) (h : Header) : Prop :=
  (Header.keys h).Nodup ∧ ∀ k ∈ Header.keys h, canon k = k

/-! ## toolHandler (main.go 32-66) -/

/-- The type `mcp.CallToolResult`: one text content and the error flag. -/
structure CallToolResult where
  text : String
  isError : Bool
  deriving DecidableEq, Repr

/-- The constructor `mcp.NewToolResultError`. -/
def newToolResultError (msg : String) : CallToolResult := { text := msg, isError := true }

/-- The constructor `mcp.NewToolResultText`. -/
def newToolResultText (text : String) : CallToolResult := { text := text, isError := false }

/-- The value `connect.NewRequest(msg)` after the header merge. -/
structure Request (Msg : Type) where
  msg : Msg
  header : Header

/-- One invocation of the handler: the two values it returns (the Go `error` is `none`
for nil) and the requests it handed to `c.CallUnary`, in order. -/
structure Invocation (Msg : Type) where
  result : CallToolResult
  err : Option String
  calls : List (Request Msg)

/-- The closure returned by `toolHandler` (main.go 33-65).  The four fallible steps are
parameters, each returning the message of its error on failure: `jsonMarshal` is
`json.Marshal(request.Params.Arguments)`, `unmarshal` is `protojsonUnmarshaller.Unmarshal`
into a fresh message of the input descriptor, `callUnary` is `c.CallUnary` and `marshal`
is `protojsonMarshaller.Marshal`. -/
def toolHandler {Args Msg : Type} (canon : String → String)
    (jsonMarshal : Args → Except String String) (unmarshal : String → Except String Msg)
    (callUnary : Request Msg → Except String Msg) (marshal : Msg → Except String String)
    (headers : Header) (arguments : Args) : Invocation Msg :=
  match jsonMarshal arguments with
  | .error e => { result := newToolResultError e, err := none, calls := [] }
  | .ok b =>
    match unmarshal b with
    | .error e => { result := newToolResultError e, err := none, calls := [] }
    | .ok msg =>
      let req : Request Msg := { msg := msg, header := mergeHeaders canon headers [] }
      match callUnary req with
      | .error e => { result := newToolResultError e, err := none, calls := [req] }
      | .ok resp =>
        match marshal resp with
        | .error e => { result := newToolResultError e, err := none, calls := [req] }
        | .ok res => { result := newToolResultText res, err := none, calls := [req] }

/-! ## The allow-list (main.go 142-148) -/

/-- The call `strings.Split(s, ",")` on the characters of `s`. -/
def splitComma : List Char → List (List Char)
  | [] => [[]]
  | c :: cs =>
    if c = ',' then [] :: splitComma cs
    else
      match splitComma cs with
      | [] => [[c]]
      | w :: ws => (c :: w) :: ws

/-- Lines 142-148 of main.go: the keys of `servicesMap` for the flag value `services`. -/
def servicesMapOf (services : String) : List String :=
  if services.length > 0 then (splitComma services.data).map String.mk else []

/-! ## The tool identifier (main.go 256) -/

/-- The call `strings.ReplaceAll(s, old, new)` for patterns of one character. -/
def replaceAll (s : String) (old new : Char) : String :=
  String.mk (s.data.map (fun c => if c = old then new else c))

/-- Line 256 of main.go: `strings.ReplaceAll(fmt.Sprintf("%v__%v", s.FullName(), m.Name()), ".", "_")`. -/
def toolName (fullName methodName : String) : String :=
  replaceAll (fullName ++ "__" ++ methodName) '.' '_'

/-- A dotted name without an empty part after a dot: no `.` is the last character and
no `.` is followed by another `.`, as in every valid full name. -/
def dotted : List Char → Bool
  | [] => true
  | [c] => c != '.'
  | c :: d :: rest => !(c == '.' && d == '.') && dotted (d :: rest)

/-- The shape of a service full name after the replacement when the name is dotted and
has no underscore of its own: no `_` is the last character and no `_` is followed by
another `_`. -/
def singleUnderscores : List Char → Bool
  | [] => true
  | [c] => c != '_'
  | c :: d :: rest => !(c == '_' && d == '_') && singleUnderscores (d :: rest)

/-! ## Registry and the projection loop (main.go 211-260) -/

/-- The registry `protoregistry.Files`: the registered files, oldest first. -/
structure Files where
  files : List FileDescriptorProto
  deriving DecidableEq, Repr

/-- The method `FindFileByPath`: the registered file of that path, `none` for NotFound. -/
def Files.findFileByPath (reg : Files) (path : String) : Option FileDescriptorProto :=
  reg.files.find? (fun f => f.name == path)

/-- The full name of a declaration of a file: the package, a dot, the name; the name
alone in a file without a package. -/
def fullName (package name : String) : String :=
  if package = "" then name else package ++ "." ++ name

/-- The beginnings of a dotted name that end before a dot, and the name itself: with
`acc` the characters already read. -/
def dotPrefixes (acc : List Char) : List Char → List (List Char)
  | [] => [acc]
  | c :: cs =>
    if c = '.' then acc :: dotPrefixes (acc ++ [c]) cs else dotPrefixes (acc ++ [c]) cs

/-- The names that `for name := file.Package(); name != ""; name = name.Parent()` of
`RegisterFile` runs through: the package and the packages around it. -/
def packageNames (package : String) : List String :=
  ((dotPrefixes [] package.data).map String.mk).filter (fun n => n != "")

/-- The full names that `rangeTopLevelDescriptors` ranges over: those of the
declarations of the file, services included. -/
def declaredNames (f : FileDescriptorProto) : List String :=
  (f.messageType ++ f.service.map (fun s => s.name)).map (fullName f.package)

/-- The names that the map `descsByName` of the registry holds for a declaration. -/
def Files.declared (reg : Files) : List String :=
  reg.files.flatMap declaredNames

/-- The names that the map `descsByName` of the registry holds for a package: the
empty name from the start, and the package names of the registered files. -/
def Files.packages (reg : Files) : List String :=
  "" :: reg.files.flatMap (fun f => packageNames f.package)

/-- The method `RegisterFile`.  It refuses a path that is registered, a file whose
package or a package around it is the name of a registered declaration, and a file with
a declaration whose full name the registry holds already, for a declaration or for a
package; otherwise the file is registered. -/
def Files.registerFile (reg : Files) (f : FileDescriptorProto) : Except String Files :=
  if (reg.findFileByPath f.name).isSome then
    .error ("file " ++ f.name ++ " is already registered")
  else if (packageNames f.package).any (fun n => decide (n ∈ reg.declared)) then
    .error ("file " ++ f.name ++ " has a package name conflict")
  else if (declaredNames f).any
      (fun n => decide (n ∈ reg.declared) || decide (n ∈ reg.packages)) then
    .error ("file " ++ f.name ++ " has a name conflict")
  else .ok { files := reg.files ++ [f] }

/-- The loop of `protodesc.NewFile` over the dependencies, with its default options (an
unresolvable path is not allowed; weak dependencies are not modelled): every dependency
path is looked up in the registry, a path that is not registered is an error, and a path
already in the set `imps` of paths met so far is refused. -/
def resolveImports (reg : Files) : List String → List String → Except String Unit
  | _, [] => .ok ()
  | imps, path :: rest =>
    match reg.findFileByPath path with
    | none => .error ("could not resolve import " ++ path)
    | some _ =>
      if path ∈ imps then .error ("already imported " ++ path)
      else resolveImports reg (path :: imps) rest

/-- The call `protodesc.NewFile(f, reg)`: the imports of `f` are resolved against the
registry (the import set starts with the path of `f` itself).  The validation of the
declarations of `f` is not modelled: descriptors are taken to be valid in themselves. -/
def newFile (f : FileDescriptorProto) (reg : Files) : Except String FileDescriptorProto :=
  match resolveImports reg [f.name] f.dependency with
  | .ok _ => .ok f
  | .error e => .error e

/-- What one call of `srv.AddTool` is given (main.go 252-257): the tool identifier and
the procedure its handler calls.  The description and the input schema, which need the
source comments and `buf.Generate`, are left out. -/
structure Tool where
  name : String
  procedure : String
  deriving DecidableEq, Repr

/-- The loop over the methods of one service (main.go 229-258): a streaming method is
skipped, every other method is handed to `srv.AddTool`. -/
def methodTools (sFull : String) : List MethodDescriptorProto → List Tool
  | [] => []
  | m :: rest =>
    if m.clientStreaming || m.serverStreaming then methodTools sFull rest
    else
      { name := toolName sFull m.name, procedure := "/" ++ sFull ++ "/" ++ m.name } ::
        methodTools sFull rest

/-- The loop over the services of one file (main.go 221-259). -/
def serviceTools (servicesMap : List String) (package : String) :
    List ServiceDescriptorProto → List Tool
  | [] => []
  | s :: rest =>
    if servicesMap.length > 0 && !(servicesMap.contains (fullName package s.name)) then
      serviceTools servicesMap package rest
    else
      methodTools (fullName package s.name) s.method ++ serviceTools servicesMap package rest

/-- The state of the loop of main.go 212-260: the registry and the calls of
`srv.AddTool` so far, in order. -/
structure Linked where
  reg : Files
  tools : List Tool
  deriving DecidableEq, Repr

/-- Lines 217-219 of main.go: `RegisterFile` is called when `FindFileByPath` does not
find the path, and the error it may return is discarded, the registry staying as it
was. -/
def registerIfAbsent (reg : Files) (desc : FileDescriptorProto) : Files :=
  match reg.findFileByPath desc.name with
  | none =>
    match reg.registerFile desc with
    | .ok reg1 => reg1
    | .error _ => reg
  | some _ => reg

/-- The body of `for _, f := range fds.GetFile()` (main.go 213-259) for one file. -/
def linkStep (servicesMap : List String) (st : Linked) (f : FileDescriptorProto) :
    Except Fault Linked :=
  match newFile f st.reg with
  | .error e => .error (.panic e)
  | .ok desc =>
    .ok { reg := registerIfAbsent st.reg desc,
          tools := st.tools ++ serviceTools servicesMap desc.package desc.service }

/-- The loop of main.go 212-260 from the state `st`. -/
def linkFiles (servicesMap : List String) : List FileDescriptorProto → Linked →
    Except Fault Linked
  | [], st => .ok st
  | f :: rest, st =>
    match linkStep servicesMap st f with
    | .ok st1 => linkFiles servicesMap rest st1
    | .error e => .error e

/-- Lines 211-260 of main.go: the loop from a new registry and a server without tools. -/
def mainLoop (servicesMap : List String) (files : List FileDescriptorProto) :
    Except Fault Linked :=
  linkFiles servicesMap files { reg := { files := [] }, tools := [] }

/-- The methods that the specification counts for the number of tools, each with the
full name of its service: over the files of the list, the services that pass the
allow-list (the allow-list is empty, or the full name of the service is in it), and of
these the methods whose client-streaming and server-streaming flags are both false.
Written from the words of the specification, not from the loop. -/
def unaryMethods (servicesMap : List String) (files : List FileDescriptorProto) :
    List (String × MethodDescriptorProto) :=
  files.flatMap (fun f =>
    (f.service.filter
      (fun s => decide (servicesMap = [] ∨ fullName f.package s.name ∈ servicesMap))).flatMap
      (fun s => (s.method.filter
        (fun m => decide (m.clientStreaming = false ∧ m.serverStreaming = false))).map
        (fun m => (fullName f.package s.name, m))))

/-- The tool list of the server after one more call of `srv.AddTool`, which stores the
tool under its name: a tool of that name is replaced. -/
def addTool (tools : List Tool) (t : Tool) : List Tool :=
  tools.filter (fun u => u.name != t.name) ++ [t]

/-- The tools that the server holds after the calls of `srv.AddTool` in `calls`. -/
def serverTools (calls : List Tool) : List Tool :=
  calls.foldl addTool []

/-- The tool that lines 252-257 of main.go build for a counted method. -/
def toolOf (p : String × MethodDescriptorProto) : Tool :=
  { name := toolName p.1 p.2.name, procedure := "/" ++ p.1 ++ "/" ++ p.2.name }

/-- What the registry of the loop satisfies: no path is registered twice, and every
registered file has dependencies that resolve in it. -/
structure RegOk (reg : Files) : Prop where
  nodup : (names reg.files).Nodup
  resolved : ∀ f ∈ reg.files, resolveImports reg [f.name] f.dependency = .ok ()

/-- No two files of the list declare one name, and no declaration is named like a
package of the list: `RegisterFile` then refuses none of them. -/
def NoConflict (files : List FileDescriptorProto) : Prop :=
  (files.flatMap declaredNames).Nodup ∧
  ∀ n ∈ files.flatMap declaredNames,
    n ≠ "" ∧ n ∉ files.flatMap (fun f => packageNames f.package)

/-! ## Acquisition (main.go 170-209) -/

/-- The call `proto.Unmarshal(b, &fds)`, with `decoded` the files that the bytes `b`
encode.  `proto.Unmarshal` runs the zero `UnmarshalOptions`, where `Merge` is false:
the destination is reset before decoding.  With `merge` the decoded files would be
appended to the ones already there. -/
def protoUnmarshal (merge : Bool) (decoded : Except String (List FileDescriptorProto))
    (fds : List FileDescriptorProto) : Except String (List FileDescriptorProto) :=
  match decoded with
  | .error e => .error e
  | .ok files => .ok (if merge then fds ++ files else files)

/-- Lines 170-209 of main.go for either behaviour of the decoder, the value of
`fds.File` when the loop of line 212 starts.  `reflect` and `descriptors` are the two
flags (line 152 has checked that one of them is given); `discovered` is the outcome of
the reflection stream (main.go 174-192), a failure or the iteration order of the map
`all` with the map; `bundle` is the outcome of `os.ReadFile`, a failure or the decoding
of the bytes read. -/
def acquireWith (merge : Bool) (reflect : Bool)
    (discovered : Except String (List FileDescriptorProto × List FileDescriptorProto))
    (descriptors : String)
    (bundle : Except String (Except String (List FileDescriptorProto))) :
    Except Fault (List FileDescriptorProto) :=
  let afterReflect : Except Fault (List FileDescriptorProto) :=
    if reflect then
      match discovered with
      | .error e => .error (.panic e)
      | .ok (order, all) => linkageOrder order all
    else .ok []
  match afterReflect with
  | .error e => .error e
  | .ok fds =>
    if descriptors ≠ "" then
      match bundle with
      | .error e => .error (.panic e)
      | .ok decoded =>
        match protoUnmarshal merge decoded fds with
        | .error e => .error (.panic e)
        | .ok fds1 => .ok fds1
    else .ok fds

/-- Lines 170-209 of main.go: line 206 calls `proto.Unmarshal`, which does not merge. -/
def acquire (reflect : Bool)
    (discovered : Except String (List FileDescriptorProto × List FileDescriptorProto))
    (descriptors : String)
    (bundle : Except String (Except String (List FileDescriptorProto))) :
    Except Fault (List FileDescriptorProto) :=
  acquireWith false reflect discovered descriptors bundle

/-- Lines 170-260 of main.go: the file list is acquired and then linked and projected. -/
def startup (reflect : Bool)
    (discovered : Except String (List FileDescriptorProto × List FileDescriptorProto))
    (descriptors : String)
    (bundle : Except String (Except String (List FileDescriptorProto)))
    (servicesMap : List String) : Except Fault Linked :=
  match acquire reflect discovered descriptors bundle with
  | .error e => .error e
  | .ok files => mainLoop servicesMap files

/-! ## Sample inputs -/

/-- A stand-in for `textproto.CanonicalMIMEHeaderKey` on the sample headers. -/
def sampleCanon (k : String) : String :=
  if k = "x-a" then "X-A" else if k = "x-b" then "X-B" else k

/-- The default header of the sample request. -/
def sampleBase : Header := [("X-A", ["1"]), ("X-B", ["9"])]

/-- The configured header set of the sample: one single-valued entry. -/
def sampleOverride : Header := [("X-A", ["2"])]

/-- A configured header set with a multi-valued entry: what the flags
`-header "X-C: 5" -header "x-a: 2" -header "x-a:3"` build. -/
def sampleMulti : Header := [("X-A", ["2", "3"]), ("X-C", ["5"])]

/-- The arguments of the scenario, as text. -/
def adaArguments : String := "\x7b\"name\":\"Ada\"\x7d"

/-- The response of the scenario, as text. -/
def adaGreeting : String := "\x7b\"greeting\":\"Hello, Ada\"\x7d"

/-- An encoder that never fails. -/
def sampleEncode (a : String) : Except String String := .ok a

/-- A decoder that refuses the empty text. -/
def sampleDecode (b : String) : Except String String :=
  if b = "" then .error "unexpected end of input" else .ok b

/-- A backend that answers every request with the greeting. -/
def sampleBackend (_ : Request String) : Except String String := .ok adaGreeting

def fD : FileDescriptorProto := ⟨"d.proto", "p", ["a.proto"], [], []⟩

/-- The file of the scenario: service `pkg.Greeter` with the unary method `SayHello` and
the streaming method `Chat`. -/
def greeterFile : FileDescriptorProto :=
  ⟨"greeter.proto", "pkg", [], ["HelloRequest", "HelloReply"],
    [⟨"Greeter", [⟨"SayHello", false, false⟩, ⟨"Chat", true, true⟩]⟩]⟩

/-- A second file descriptor under the name of `greeterFile`, with another service. -/
def greeterFileV2 : FileDescriptorProto :=
  ⟨"greeter.proto", "pkg", [], ["ResetRequest", "ResetReply"],
    [⟨"Admin", [⟨"Reset", false, false⟩]⟩]⟩

/-- A file of package `a` with the service `b`, full name `a.b`. -/
def collideDot : FileDescriptorProto :=
  ⟨"one.proto", "a", [], ["Req"], [⟨"b", [⟨"M", false, false⟩]⟩]⟩

/-- A file without a package with the service `a_b`, full name `a_b`. -/
def collideUnderscore : FileDescriptorProto :=
  ⟨"two.proto", "", [], ["Req"], [⟨"a_b", [⟨"M", false, false⟩]⟩]⟩

/-- A file that declares the service `pkg.Greeter` once more, under another path. -/
def greeterAgain : FileDescriptorProto :=
  ⟨"again.proto", "pkg", [], ["AgainRequest", "AgainReply"],
    [⟨"Greeter", [⟨"SayHello", false, false⟩]⟩]⟩

/-- A file that depends on `greeterAgain`. -/
def usesAgain : FileDescriptorProto := ⟨"uses.proto", "pkg", ["again.proto"], [], []⟩

/-- A file whose package `pkg.Greeter` is named like the service of `greeterFile`. -/
def nestedPackage : FileDescriptorProto := ⟨"nested.proto", "pkg.Greeter", [], ["Inner"], []⟩

/-- A file without a package that declares the message `pkg`, named like the package of
`greeterFile`. -/
def shadowPackage : FileDescriptorProto := ⟨"shadow.proto", "", [], ["pkg"], []⟩

def sayHelloTool : Tool := ⟨"pkg_Greeter__SayHello", "/pkg.Greeter/SayHello"⟩
def resetTool : Tool := ⟨"pkg_Admin__Reset", "/pkg.Admin/Reset"⟩

/-! ## Lemmas on topSort -/

theorem lookup_some {all : List FileDescriptorProto} {dep : String} {v : FileDescriptorProto}
    (h : lookup all dep = some v) : v ∈ all ∧ v.name = dep := by
  unfold lookup at h
  refine ⟨List.mem_of_find?_eq_some h, ?_⟩
  have := List.find?_some h
  simpa using this

theorem lookup_none {all : List FileDescriptorProto} {dep : String}
    (h : lookup all dep = none) : dep ∉ names all := by
  unfold lookup at h
  intro hmem
  obtain ⟨d, hd, hname⟩ := List.mem_map.1 hmem
  have := List.find?_eq_none.1 h d hd
  simp [hname] at this

theorem lookup_of_mem {all : List FileDescriptorProto} {dep : String}
    (h : dep ∈ names all) : ∃ v, lookup all dep = some v := by
  cases hl : lookup all dep with
  | none => exact absurd h (lookup_none hl)
  | some v => exact ⟨v, rfl⟩

theorem Post.refl {all : List FileDescriptorProto} {st : SortState} (h : Inv all st) :
    Post all st st :=
  ⟨h, fun _ hn => hn, fun _ hn => hn, fun _ => Iff.rfl⟩

theorem Post.trans {all : List FileDescriptorProto} {st st1 st2 : SortState}
    (h1 : Post all st st1) (h2 : Post all st1 st2) : Post all st st2 :=
  ⟨h2.inv, fun n hn => h2.seenMono n (h1.seenMono n hn),
    fun n hn => h2.dsMono n (h1.dsMono n hn),
    fun n => (h2.inProgress n).trans (h1.inProgress n)⟩

/-- The dependency loop preserves what each recursive call preserves, and every
dependency it has passed is a key that is now marked seen. -/
theorem visitDeps_post {all : List FileDescriptorProto}
    {visit : FileDescriptorProto → SortState → Except Fault SortState}
    (hv : ∀ v st st1, v ∈ all → Inv all st → visit v st = .ok st1 →
      Post all st st1 ∧ v.name ∈ st1.seen) :
    ∀ (deps : List String) (st st1 : SortState), Inv all st →
      visitDeps visit all deps st = .ok st1 →
      Post all st st1 ∧ ∀ dep ∈ deps, dep ∈ names all ∧ dep ∈ st1.seen := by
  intro deps
  induction deps with
  | nil =>
    intro st st1 hinv h
    simp only [visitDeps, Except.ok.injEq] at h
    subst h
    exact ⟨Post.refl hinv, by simp⟩
  | cons dep rest ih =>
    intro st st1 hinv h
    simp only [visitDeps] at h
    cases hl : lookup all dep with
    | none => simp [hl] at h
    | some v =>
      simp only [hl] at h
      obtain ⟨hvall, hvname⟩ := lookup_some hl
      cases hvis : visit v st with
      | error e => simp [hvis] at h
      | ok sta =>
        simp only [hvis] at h
        obtain ⟨hpa, hseen⟩ := hv v st sta hvall hinv hvis
        obtain ⟨hpr, hrest⟩ := ih sta st1 hpa.inv h
        refine ⟨hpa.trans hpr, ?_⟩
        intro dep1 hdep1
        rcases List.mem_cons.1 hdep1 with rfl | hmem
        · refine ⟨?_, hpr.seenMono _ (hvname ▸ hseen)⟩
          rw [← hvname]
          exact List.mem_map.2 ⟨v, hvall, rfl⟩
        · exact hrest dep1 hmem

theorem names_append (l1 l2 : List FileDescriptorProto) :
    names (l1 ++ l2) = names l1 ++ names l2 := by
  simp [names]

/-- Partial correctness of one call of `topSort`. -/
theorem topSort_post {all : List FileDescriptorProto} :
    ∀ (fuel : Nat) (d : FileDescriptorProto) (st st1 : SortState), d ∈ all → Inv all st →
      topSort fuel all d st = .ok st1 → Post all st st1 ∧ d.name ∈ st1.seen := by
  intro fuel
  induction fuel with
  | zero =>
    intro d st st1 _ _ h
    simp [topSort] at h
  | succ fuel ih =>
    intro d st st1 hd hinv h
    simp only [topSort] at h
    by_cases hseen : d.name ∈ st.seen
    · simp only [hseen, if_true, Except.ok.injEq] at h
      subst h
      exact ⟨Post.refl hinv, hseen⟩
    · simp only [hseen, if_false] at h
      cases hvd : visitDeps (topSort fuel all) all d.dependency
          { seen := d.name :: st.seen, ds := st.ds } with
      | error e => simp [hvd] at h
      | ok st2 =>
        simp only [hvd, Except.ok.injEq] at h
        subst h
        have hdname : d.name ∈ names all := List.mem_map.2 ⟨d, hd, rfl⟩
        have hnotds : d.name ∉ names st.ds := fun hc => hseen (hinv.dsSeen _ hc)
        have hinv1 : Inv all { seen := d.name :: st.seen, ds := st.ds } :=
          { seenNodup := List.nodup_cons.2 ⟨hseen, hinv.seenNodup⟩
            dsNodup := hinv.dsNodup
            dsSeen := fun n hn => List.mem_cons_of_mem _ (hinv.dsSeen n hn)
            seenKeys := by
              intro n hn
              rcases List.mem_cons.1 hn with rfl | hn
              · exact hdname
              · exact hinv.seenKeys n hn
            dsClosed := hinv.dsClosed }
        obtain ⟨hp, hdeps⟩ := visitDeps_post (fun v s s1 hv hi hr => ih v s s1 hv hi hr)
          d.dependency _ st2 hinv1 hvd
        have hprog : InProgress st2 d.name :=
          (hp.inProgress d.name).2 ⟨List.mem_cons_self _ _, hnotds⟩
        refine ⟨?_, hprog.1⟩
        refine
          { inv :=
              { seenNodup := hp.inv.seenNodup
                dsNodup := ?_
                dsSeen := ?_
                seenKeys := hp.inv.seenKeys
                dsClosed := ?_ }
            seenMono := fun n hn => hp.seenMono n (List.mem_cons_of_mem _ hn)
            dsMono := ?_
            inProgress := ?_ }
        · show (names (st2.ds ++ [d])).Nodup
          rw [names_append]
          refine List.Nodup.append hp.inv.dsNodup (by simp [names]) ?_
          intro n hn1 hn2
          simp only [names, List.map_cons, List.map_nil, List.mem_singleton] at hn2
          subst hn2
          exact hprog.2 hn1
        · intro n hn
          change n ∈ names (st2.ds ++ [d]) at hn
          rw [names_append, List.mem_append] at hn
          rcases hn with hn | hn
          · exact hp.inv.dsSeen n hn
          · simp only [names, List.map_cons, List.map_nil, List.mem_singleton] at hn
            subst hn
            exact hprog.1
        · intro x hx
          change x ∈ st2.ds ++ [d] at hx
          rcases List.mem_append.1 hx with hx | hx
          · exact hp.inv.dsClosed x hx
          · rw [List.mem_singleton] at hx
            subst hx
            exact ⟨hd, fun dep hdep => (hdeps dep hdep).1⟩
        · intro n hn
          show n ∈ names (st2.ds ++ [d])
          rw [names_append]
          exact List.mem_append_left _ (hp.dsMono n hn)
        · intro n
          constructor
          · rintro ⟨h1, h2⟩
            change n ∉ names (st2.ds ++ [d]) at h2
            rw [names_append, List.mem_append, not_or] at h2
            have hne : n ≠ d.name := by
              intro hc
              apply h2.2
              simp [names, hc]
            obtain ⟨h3, h4⟩ := (hp.inProgress n).1 ⟨h1, h2.1⟩
            rcases List.mem_cons.1 h3 with h3 | h3
            · exact absurd h3 hne
            · exact ⟨h3, h4⟩
          · rintro ⟨h1, h2⟩
            obtain ⟨h3, h4⟩ := (hp.inProgress n).2 ⟨List.mem_cons_of_mem _ h1, h2⟩
            refine ⟨h3, ?_⟩
            show n ∉ names (st2.ds ++ [d])
            rw [names_append, List.mem_append, not_or]
            refine ⟨h4, ?_⟩
            simp only [names, List.map_cons, List.map_nil, List.mem_singleton]
            rintro rfl
            exact hseen h1

theorem names_length (l : List FileDescriptorProto) : (names l).length = l.length := by
  simp [names]

theorem Inv.seen_length_le {all : List FileDescriptorProto} {st : SortState}
    (h : Inv all st) : st.seen.length ≤ all.length := by
  rw [← names_length all]
  exact (List.Nodup.subperm h.seenNodup (fun n hn => h.seenKeys n hn)).length_le

theorem Post.seen_length_mono {all : List FileDescriptorProto} {st st1 : SortState}
    (hinv : Inv all st) (h : Post all st st1) : st.seen.length ≤ st1.seen.length :=
  (List.Nodup.subperm hinv.seenNodup (fun n hn => h.seenMono n hn)).length_le

/-- The dependency loop does not exhaust the budget when no recursive call does. -/
theorem visitDeps_fuel {all : List FileDescriptorProto} {fuel : Nat}
    (hv : ∀ v st, v ∈ all → Inv all st → all.length < fuel + st.seen.length →
      topSort fuel all v st ≠ .error .fuel) :
    ∀ (deps : List String) (st : SortState), Inv all st →
      all.length < fuel + st.seen.length →
      visitDeps (topSort fuel all) all deps st ≠ .error .fuel := by
  intro deps
  induction deps with
  | nil =>
    intro st _ _
    simp [visitDeps]
  | cons dep rest ih =>
    intro st hinv hlen
    simp only [visitDeps]
    cases hl : lookup all dep with
    | none => simp
    | some v =>
      obtain ⟨hvall, _⟩ := lookup_some hl
      cases hvis : topSort fuel all v st with
      | error e =>
        simp only [hvis]
        intro hc
        simp only [Except.error.injEq] at hc
        subst hc
        exact hv v st hvall hinv hlen hvis
      | ok sta =>
        simp only [hvis]
        obtain ⟨hpa, _⟩ := topSort_post fuel v st sta hvall hinv hvis
        have := Post.seen_length_mono hinv hpa
        exact ih sta hpa.inv (by omega)

/-- A budget larger than the number of keys not yet seen is never exhausted. -/
theorem topSort_fuel {all : List FileDescriptorProto} :
    ∀ (fuel : Nat) (d : FileDescriptorProto) (st : SortState), d ∈ all → Inv all st →
      all.length < fuel + st.seen.length → topSort fuel all d st ≠ .error .fuel := by
  intro fuel
  induction fuel with
  | zero =>
    intro d st _ hinv hlen
    have := hinv.seen_length_le
    omega
  | succ fuel ih =>
    intro d st hd hinv hlen
    simp only [topSort]
    by_cases hseen : d.name ∈ st.seen
    · simp [hseen]
    · simp only [hseen, if_false]
      have hinv1 : Inv all { seen := d.name :: st.seen, ds := st.ds } :=
        { seenNodup := List.nodup_cons.2 ⟨hseen, hinv.seenNodup⟩
          dsNodup := hinv.dsNodup
          dsSeen := fun n hn => List.mem_cons_of_mem _ (hinv.dsSeen n hn)
          seenKeys := by
            intro n hn
            rcases List.mem_cons.1 hn with rfl | hn
            · exact List.mem_map.2 ⟨d, hd, rfl⟩
            · exact hinv.seenKeys n hn
          dsClosed := hinv.dsClosed }
      have hne := visitDeps_fuel ih d.dependency _ hinv1
        (by simp only [List.length_cons]; omega)
      cases hvd : visitDeps (topSort fuel all) all d.dependency
          { seen := d.name :: st.seen, ds := st.ds } with
      | error e =>
        intro hc
        simp only [Except.error.injEq] at hc
        subst hc
        exact hne hvd
      | ok st2 => simp

/-- A panic of the dependency loop comes from a dependency that is not a key. -/
theorem visitDeps_panic {all : List FileDescriptorProto}
    {visit : FileDescriptorProto → SortState → Except Fault SortState}
    (hv : ∀ v st msg, v ∈ all → visit v st = .error (.panic msg) → ¬ Closed all)
    (d : FileDescriptorProto) (hd : d ∈ all) :
    ∀ (deps : List String) (st : SortState) (msg : String),
      (∀ dep ∈ deps, dep ∈ d.dependency) →
      visitDeps visit all deps st = .error (.panic msg) → ¬ Closed all := by
  intro deps
  induction deps with
  | nil =>
    intro st msg _ h
    simp [visitDeps] at h
  | cons dep rest ih =>
    intro st msg hsub h
    simp only [visitDeps] at h
    cases hl : lookup all dep with
    | none =>
      intro hclosed
      exact lookup_none hl (hclosed d hd dep (hsub dep (List.mem_cons_self _ _)))
    | some v =>
      simp only [hl] at h
      obtain ⟨hvall, _⟩ := lookup_some hl
      cases hvis : visit v st with
      | error e =>
        simp only [hvis, Except.error.injEq] at h
        subst h
        exact hv v st msg hvall hvis
      | ok sta =>
        simp only [hvis] at h
        exact ih sta msg (fun x hx => hsub x (List.mem_cons_of_mem _ hx)) h

/-- A panic of `topSort` comes from a dependency that is not a key. -/
theorem topSort_panic {all : List FileDescriptorProto} :
    ∀ (fuel : Nat) (d : FileDescriptorProto) (st : SortState) (msg : String), d ∈ all →
      topSort fuel all d st = .error (.panic msg) → ¬ Closed all := by
  intro fuel
  induction fuel with
  | zero =>
    intro d st msg _ h
    simp [topSort] at h
  | succ fuel ih =>
    intro d st msg hd h
    simp only [topSort] at h
    by_cases hseen : d.name ∈ st.seen
    · simp [hseen] at h
    · simp only [hseen, if_false] at h
      cases hvd : visitDeps (topSort fuel all) all d.dependency
          { seen := d.name :: st.seen, ds := st.ds } with
      | error e =>
        simp only [hvd, Except.error.injEq] at h
        subst h
        exact visitDeps_panic (fun v s m hv hr => ih v s m hv hr) d hd d.dependency _ msg
          (fun _ hx => hx) hvd
      | ok st2 => simp [hvd] at h

theorem depOrdered_nil : DepOrdered [] := by
  intro pre x post h
  simp at h

theorem depOrdered_snoc {ds : List FileDescriptorProto} {d : FileDescriptorProto}
    (h : DepOrdered ds) (hd : ∀ dep ∈ d.dependency, dep ∈ names ds) :
    DepOrdered (ds ++ [d]) := by
  intro pre x post heq dep hdep
  rcases List.eq_nil_or_concat post with hp | ⟨L, b, hp⟩
  · subst hp
    obtain ⟨h1, h2⟩ := List.append_inj' heq rfl
    simp only [List.cons.injEq, and_true] at h2
    subst h1 h2
    exact hd dep hdep
  · subst hp
    have heq2 : ds ++ [d] = (pre ++ x :: L) ++ [b] := by simpa using heq
    obtain ⟨h1, _⟩ := List.append_inj' heq2 rfl
    exact h pre x L h1 dep hdep

/-- On an acyclic graph the dependency loop keeps the output ordered and leaves every
dependency it has passed in the output. -/
theorem visitDeps_order {all : List FileDescriptorProto} {fuel : Nat}
    (hv : ∀ v st st1, v ∈ all → Inv all st →
      (∀ n, InProgress st n → Relation.TransGen (DependsOn all) n v.name) →
      DepOrdered st.ds → topSort fuel all v st = .ok st1 →
      DepOrdered st1.ds ∧ v.name ∈ names st1.ds) :
    ∀ (deps : List String) (st st1 : SortState), Inv all st →
      (∀ n, InProgress st n → ∀ dep ∈ deps, Relation.TransGen (DependsOn all) n dep) →
      DepOrdered st.ds → visitDeps (topSort fuel all) all deps st = .ok st1 →
      DepOrdered st1.ds ∧ ∀ dep ∈ deps, dep ∈ names st1.ds := by
  intro deps
  induction deps with
  | nil =>
    intro st st1 _ _ hord h
    simp only [visitDeps, Except.ok.injEq] at h
    subst h
    exact ⟨hord, by simp⟩
  | cons dep rest ih =>
    intro st st1 hinv hreach hord h
    simp only [visitDeps] at h
    cases hl : lookup all dep with
    | none => simp [hl] at h
    | some v =>
      simp only [hl] at h
      obtain ⟨hvall, hvname⟩ := lookup_some hl
      cases hvis : topSort fuel all v st with
      | error e => simp [hvis] at h
      | ok sta =>
        simp only [hvis] at h
        obtain ⟨hpa, _⟩ := topSort_post fuel v st sta hvall hinv hvis
        obtain ⟨horda, hva⟩ := hv v st sta hvall hinv
          (fun n hn => hvname ▸ hreach n hn dep (List.mem_cons_self _ _)) hord hvis
        obtain ⟨hpr, _⟩ := visitDeps_post
          (fun v s s1 hv hi hr => topSort_post fuel v s s1 hv hi hr) rest sta st1 hpa.inv h
        obtain ⟨hord1, hrest⟩ := ih sta st1 hpa.inv
          (fun n hn dep1 hdep1 =>
            hreach n ((hpa.inProgress n).1 hn) dep1 (List.mem_cons_of_mem _ hdep1))
          horda h
        refine ⟨hord1, ?_⟩
        intro dep1 hdep1
        rcases List.mem_cons.1 hdep1 with rfl | hmem
        · exact hpr.dsMono _ (hvname ▸ hva)
        · exact hrest dep1 hmem

/-- On an acyclic graph one call of `topSort` keeps the output ordered and leaves its
descriptor in the output. -/
theorem topSort_order {all : List FileDescriptorProto} (hacyc : Acyclic all) :
    ∀ (fuel : Nat) (d : FileDescriptorProto) (st st1 : SortState), d ∈ all → Inv all st →
      (∀ n, InProgress st n → Relation.TransGen (DependsOn all) n d.name) →
      DepOrdered st.ds → topSort fuel all d st = .ok st1 →
      DepOrdered st1.ds ∧ d.name ∈ names st1.ds := by
  intro fuel
  induction fuel with
  | zero =>
    intro d st st1 _ _ _ _ h
    simp [topSort] at h
  | succ fuel ih =>
    intro d st st1 hd hinv hreach hord h
    simp only [topSort] at h
    by_cases hseen : d.name ∈ st.seen
    · simp only [hseen, if_true, Except.ok.injEq] at h
      subst h
      refine ⟨hord, ?_⟩
      by_contra hnot
      exact hacyc d.name (hreach d.name ⟨hseen, hnot⟩)
    · simp only [hseen, if_false] at h
      cases hvd : visitDeps (topSort fuel all) all d.dependency
          { seen := d.name :: st.seen, ds := st.ds } with
      | error e => simp [hvd] at h
      | ok st2 =>
        simp only [hvd, Except.ok.injEq] at h
        subst h
        have hinv1 : Inv all { seen := d.name :: st.seen, ds := st.ds } :=
          { seenNodup := List.nodup_cons.2 ⟨hseen, hinv.seenNodup⟩
            dsNodup := hinv.dsNodup
            dsSeen := fun n hn => List.mem_cons_of_mem _ (hinv.dsSeen n hn)
            seenKeys := by
              intro n hn
              rcases List.mem_cons.1 hn with rfl | hn
              · exact List.mem_map.2 ⟨d, hd, rfl⟩
              · exact hinv.seenKeys n hn
            dsClosed := hinv.dsClosed }
        have hreach1 : ∀ n, InProgress { seen := d.name :: st.seen, ds := st.ds } n →
            ∀ dep ∈ d.dependency, Relation.TransGen (DependsOn all) n dep := by
          intro n hn dep hdep
          have hedge : DependsOn all d.name dep := ⟨d, hd, rfl, hdep⟩
          rcases List.mem_cons.1 hn.1 with hnd | hns
          · rw [hnd]
            exact Relation.TransGen.single hedge
          · exact Relation.TransGen.tail (hreach n ⟨hns, hn.2⟩) hedge
        obtain ⟨hord2, hdeps⟩ := visitDeps_order ih d.dependency _ st2 hinv1 hreach1 hord hvd
        refine ⟨depOrdered_snoc hord2 hdeps, ?_⟩
        show d.name ∈ names (st2.ds ++ [d])
        simp [names]

/-! ### The driver loop -/

theorem sortLoop_post {all : List FileDescriptorProto} {fuel : Nat} :
    ∀ (order : List FileDescriptorProto) (st st1 : SortState), (∀ d ∈ order, d ∈ all) →
      Inv all st → sortLoop fuel all order st = .ok st1 →
      Post all st st1 ∧ ∀ d ∈ order, d.name ∈ st1.seen := by
  intro order
  induction order with
  | nil =>
    intro st st1 _ hinv h
    simp only [sortLoop, Except.ok.injEq] at h
    subst h
    exact ⟨Post.refl hinv, by simp⟩
  | cons d rest ih =>
    intro st st1 hsub hinv h
    simp only [sortLoop] at h
    cases hvis : topSort fuel all d st with
    | error e => simp [hvis] at h
    | ok sta =>
      simp only [hvis] at h
      obtain ⟨hpa, hda⟩ := topSort_post fuel d st sta (hsub d (List.mem_cons_self _ _)) hinv hvis
      obtain ⟨hpr, hrest⟩ := ih sta st1 (fun x hx => hsub x (List.mem_cons_of_mem _ hx))
        hpa.inv h
      refine ⟨hpa.trans hpr, ?_⟩
      intro x hx
      rcases List.mem_cons.1 hx with rfl | hmem
      · exact hpr.seenMono _ hda
      · exact hrest x hmem

theorem sortLoop_fuel {all : List FileDescriptorProto} {fuel : Nat} :
    ∀ (order : List FileDescriptorProto) (st : SortState), (∀ d ∈ order, d ∈ all) →
      Inv all st → all.length < fuel + st.seen.length →
      sortLoop fuel all order st ≠ .error .fuel := by
  intro order
  induction order with
  | nil =>
    intro st _ _ _
    simp [sortLoop]
  | cons d rest ih =>
    intro st hsub hinv hlen
    simp only [sortLoop]
    have hd := hsub d (List.mem_cons_self _ _)
    cases hvis : topSort fuel all d st with
    | error e =>
      simp only [hvis]
      intro hc
      simp only [Except.error.injEq] at hc
      subst hc
      exact topSort_fuel fuel d st hd hinv hlen hvis
    | ok sta =>
      simp only [hvis]
      obtain ⟨hpa, _⟩ := topSort_post fuel d st sta hd hinv hvis
      have := Post.seen_length_mono hinv hpa
      exact ih sta (fun x hx => hsub x (List.mem_cons_of_mem _ hx)) hpa.inv (by omega)

theorem sortLoop_panic {all : List FileDescriptorProto} {fuel : Nat} :
    ∀ (order : List FileDescriptorProto) (st : SortState) (msg : String),
      (∀ d ∈ order, d ∈ all) → sortLoop fuel all order st = .error (.panic msg) →
      ¬ Closed all := by
  intro order
  induction order with
  | nil =>
    intro st msg _ h
    simp [sortLoop] at h
  | cons d rest ih =>
    intro st msg hsub h
    simp only [sortLoop] at h
    cases hvis : topSort fuel all d st with
    | error e =>
      simp only [hvis, Except.error.injEq] at h
      subst h
      exact topSort_panic fuel d st msg (hsub d (List.mem_cons_self _ _)) hvis
    | ok sta =>
      simp only [hvis] at h
      exact ih sta msg (fun x hx => hsub x (List.mem_cons_of_mem _ hx)) h

theorem sortLoop_order {all : List FileDescriptorProto} {fuel : Nat} (hacyc : Acyclic all) :
    ∀ (order : List FileDescriptorProto) (st st1 : SortState), (∀ d ∈ order, d ∈ all) →
      Inv all st → (∀ n, ¬ InProgress st n) → DepOrdered st.ds →
      sortLoop fuel all order st = .ok st1 → DepOrdered st1.ds := by
  intro order
  induction order with
  | nil =>
    intro st st1 _ _ _ hord h
    simp only [sortLoop, Except.ok.injEq] at h
    subst h
    exact hord
  | cons d rest ih =>
    intro st st1 hsub hinv hnone hord h
    simp only [sortLoop] at h
    have hd := hsub d (List.mem_cons_self _ _)
    cases hvis : topSort fuel all d st with
    | error e => simp [hvis] at h
    | ok sta =>
      simp only [hvis] at h
      obtain ⟨hpa, _⟩ := topSort_post fuel d st sta hd hinv hvis
      obtain ⟨horda, _⟩ := topSort_order hacyc fuel d st sta hd hinv
        (fun n hn => absurd hn (hnone n)) hord hvis
      exact ih sta st1 (fun x hx => hsub x (List.mem_cons_of_mem _ hx)) hpa.inv
        (fun n hn => hnone n ((hpa.inProgress n).1 hn)) horda h

theorem inv_init (all : List FileDescriptorProto) : Inv all { seen := [], ds := [] } :=
  { seenNodup := List.nodup_nil
    dsNodup := by simp [names]
    dsSeen := by simp [names]
    seenKeys := by simp
    dsClosed := by simp }

/-- A descriptor of a name-keyed map is determined by its name. -/
theorem eq_of_name_eq {all : List FileDescriptorProto} (hkeys : (names all).Nodup)
    {x y : FileDescriptorProto} (hx : x ∈ all) (hy : y ∈ all) (h : x.name = y.name) :
    x = y :=
  List.inj_on_of_nodup_map hkeys hx hy h

/-- A finished run of the driver loop from the empty state: nothing is left in progress
and the output is a rearrangement of the map. -/
theorem sortLoop_done {all order : List FileDescriptorProto} {fuel : Nat}
    (hkeys : (names all).Nodup) (hperm : order.Perm all) {st : SortState}
    (h : sortLoop fuel all order { seen := [], ds := [] } = .ok st) :
    Inv all st ∧ (∀ n, ¬ InProgress st n) ∧ st.ds.Perm all := by
  have hsub : ∀ d ∈ order, d ∈ all := fun d hd => hperm.subset hd
  obtain ⟨hp, hall⟩ := sortLoop_post order _ st hsub (inv_init all) h
  have hnone : ∀ n, ¬ InProgress st n := by
    intro n hn
    have := (hp.inProgress n).1 hn
    simp [InProgress] at this
  refine ⟨hp.inv, hnone, ?_⟩
  have hnd : st.ds.Nodup := List.Nodup.of_map _ hp.inv.dsNodup
  have hnda : all.Nodup := List.Nodup.of_map _ hkeys
  refine (List.perm_ext_iff_of_nodup hnd hnda).2 ?_
  intro x
  constructor
  · intro hx
    exact (hp.inv.dsClosed x hx).1
  · intro hx
    have hseen : x.name ∈ st.seen := hall x (hperm.symm.subset hx)
    have hin : x.name ∈ names st.ds := by
      by_contra hnot
      exact hnone _ ⟨hseen, hnot⟩
    obtain ⟨y, hy, hyname⟩ := List.mem_map.1 hin
    have := eq_of_name_eq hkeys (hp.inv.dsClosed y hy).1 hx hyname
    exact this ▸ hy

theorem sortLoop_run_fuel (all order : List FileDescriptorProto) (hperm : order.Perm all) :
    sortLoop (all.length + 1) all order { seen := [], ds := [] } ≠ .error .fuel :=
  sortLoop_fuel order _ (fun d hd => hperm.subset hd) (inv_init all) (by simp)

/-- On a closed graph the driver loop finishes. -/
theorem sortLoop_closed {all order : List FileDescriptorProto} (hperm : order.Perm all)
    (hclosed : Closed all) :
    ∃ st, sortLoop (all.length + 1) all order { seen := [], ds := [] } = .ok st := by
  cases h : sortLoop (all.length + 1) all order { seen := [], ds := [] } with
  | ok st => exact ⟨st, rfl⟩
  | error e =>
    cases e with
    | fuel => exact absurd h (sortLoop_run_fuel all order hperm)
    | panic msg =>
      exact absurd hclosed (sortLoop_panic order _ msg (fun d hd => hperm.subset hd) h)

/-- In an ordered list without repeated names, a dependency sits at a smaller index. -/
theorem depOrdered_index {ds : List FileDescriptorProto} (hord : DepOrdered ds)
    (hnd : (names ds).Nodup) (i j : Nat) (hi : i < ds.length) (hj : j < ds.length)
    (hdep : ds[j].name ∈ ds[i].dependency) : j < i := by
  have hsplit : ds = ds.take i ++ ds[i] :: ds.drop (i + 1) := by
    rw [List.getElem_cons_drop, List.take_append_drop]
  have hmem := hord (ds.take i) ds[i] (ds.drop (i + 1)) hsplit _ hdep
  obtain ⟨y, hy, hyname⟩ := List.mem_map.1 hmem
  obtain ⟨k, hk, hky⟩ := List.getElem_of_mem hy
  have hki : k < i := by
    have := hk
    simp only [List.length_take] at this
    omega
  have hkl : k < ds.length := by omega
  have hyk : ds[k] = y := by
    rw [← hky, List.getElem_take]
  have hkn : k < (names ds).length := by rw [names_length]; exact hkl
  have hjn : j < (names ds).length := by rw [names_length]; exact hj
  have hnames : (names ds)[k] = (names ds)[j] := by
    simp only [names, List.getElem_map]
    rw [hyk, hyname]
  have := (List.Nodup.getElem_inj_iff hnd).1 hnames
  omega

theorem acyclic_of_rank {all : List FileDescriptorProto} (rank : String → Nat)
    (h : ∀ d ∈ all, ∀ dep ∈ d.dependency, rank dep < rank d.name) : Acyclic all := by
  have key : ∀ a b, Relation.TransGen (DependsOn all) a b → rank b < rank a := by
    intro a b hab
    induction hab with
    | single hedge =>
      obtain ⟨d, hd, hname, hdep⟩ := hedge
      exact hname ▸ h d hd _ hdep
    | tail _ hedge ih =>
      obtain ⟨d, hd, hname, hdep⟩ := hedge
      have := h d hd _ hdep
      rw [hname] at this
      omega
  intro n hn
  exact Nat.lt_irrefl _ (key n n hn)

/-! ## C1, C9, C10 -/

/-- C1. For a name-keyed map of file descriptors whose dependency graph is closed and
acyclic, the list built by calling `topSort` on every entry (one shared `seen`, one
shared output), in whatever order the entries are visited, is returned, holds exactly
the descriptors of the map, and places every descriptor at a later position than every
descriptor it depends on. -/
theorem topSort_places_dependencies_first (all order : List FileDescriptorProto)
    (hkeys : (names all).Nodup) (horder : order.Perm all)
    (hclosed : Closed all) (hacyclic : Acyclic all) :
    ∃ ds, linkageOrder order all = .ok ds ∧ ds.Perm all ∧
      ∀ (i j : Nat) (hi : i < ds.length) (hj : j < ds.length),
        ds[j].name ∈ ds[i].dependency → j < i := by
  obtain ⟨st, hst⟩ := sortLoop_closed horder hclosed
  obtain ⟨hinv, hnone, hp⟩ := sortLoop_done hkeys horder hst
  have hord : DepOrdered st.ds :=
    sortLoop_order hacyclic order _ st (fun d hd => horder.subset hd) (inv_init all)
      (by simp [InProgress]) depOrdered_nil hst
  refine ⟨st.ds, by simp [linkageOrder, hst], hp, ?_⟩
  intro i j hi hj hdep
  exact depOrdered_index hord hinv.dsNodup i j hi hj hdep

/-- C9. For a name-keyed map of file descriptors, running `topSort` over all entries
(shared `seen`, initially empty) panics if and only if some descriptor of the map lists
a dependency name that is not a key of the map; a run that does not panic returns a
linkage order, and a run that panics returns none. -/
theorem topSort_panics_iff_missing_dependency (all order : List FileDescriptorProto)
    (hkeys : (names all).Nodup) (horder : order.Perm all) :
    ((∃ msg, linkageOrder order all = .error (.panic msg)) ↔
      ∃ d ∈ all, ∃ dep ∈ d.dependency, dep ∉ names all) ∧
    ((∃ msg, linkageOrder order all = .error (.panic msg)) ∨
      ∃ ds, linkageOrder order all = .ok ds) ∧
    ((∃ msg, linkageOrder order all = .error (.panic msg)) →
      ∀ ds, linkageOrder order all ≠ .ok ds) := by
  have hsub : ∀ d ∈ order, d ∈ all := fun d hd => horder.subset hd
  refine ⟨⟨?_, ?_⟩, ?_, ?_⟩
  · rintro ⟨msg, hmsg⟩
    have hnc : ¬ Closed all := by
      cases h : sortLoop (all.length + 1) all order { seen := [], ds := [] } with
      | ok st => simp [linkageOrder, h] at hmsg
      | error e =>
        simp only [linkageOrder, h, Except.error.injEq] at hmsg
        subst hmsg
        exact sortLoop_panic order _ msg hsub h
    by_contra hno
    apply hnc
    intro d hd dep hdep
    by_contra hmiss
    exact hno ⟨d, hd, dep, hdep, hmiss⟩
  · rintro ⟨d, hd, dep, hdep, hmiss⟩
    cases h : sortLoop (all.length + 1) all order { seen := [], ds := [] } with
    | ok st =>
      obtain ⟨hinv, _, hp⟩ := sortLoop_done hkeys horder h
      exact absurd ((hinv.dsClosed d (hp.symm.subset hd)).2 dep hdep) hmiss
    | error e =>
      cases e with
      | fuel => exact absurd h (sortLoop_run_fuel all order horder)
      | panic msg => exact ⟨msg, by simp [linkageOrder, h]⟩
  · cases h : sortLoop (all.length + 1) all order { seen := [], ds := [] } with
    | ok st => exact Or.inr ⟨st.ds, by simp [linkageOrder, h]⟩
    | error e =>
      cases e with
      | fuel => exact absurd h (sortLoop_run_fuel all order horder)
      | panic msg => exact Or.inl ⟨msg, by simp [linkageOrder, h]⟩
  · rintro ⟨msg, hmsg⟩ ds hds
    rw [hmsg] at hds
    cases hds

/-- C10. For a name-keyed map of file descriptors whose dependency names are all keys
of the map (cycles and self-dependencies allowed), running `topSort` over all entries
with a shared `seen` set terminates with a result; a call on a descriptor whose name is
already marked seen returns at once and changes nothing, so no name is marked twice; and
the output list holds every descriptor of the map exactly once. -/
theorem topSort_tolerates_cycles (all order : List FileDescriptorProto)
    (hkeys : (names all).Nodup) (horder : order.Perm all) (hclosed : Closed all) :
    ∃ st, sortLoop (all.length + 1) all order { seen := [], ds := [] } = .ok st ∧
      linkageOrder order all = .ok st.ds ∧
      (∀ (fuel : Nat) (d : FileDescriptorProto) (s : SortState), d.name ∈ s.seen →
        topSort (fuel + 1) all d s = .ok s) ∧
      st.seen.Nodup ∧ st.seen.Perm (names all) ∧
      st.ds.Perm all ∧ st.ds.Nodup ∧ ∀ d ∈ all, st.ds.count d = 1 := by
  obtain ⟨st, hst⟩ := sortLoop_closed horder hclosed
  obtain ⟨hinv, hnone, hp⟩ := sortLoop_done hkeys horder hst
  have hnda : all.Nodup := List.Nodup.of_map _ hkeys
  have hnd : st.ds.Nodup := List.Nodup.of_map _ hinv.dsNodup
  refine ⟨st, hst, by simp [linkageOrder, hst], ?_, hinv.seenNodup, ?_, hp, hnd, ?_⟩
  · intro fuel d s hseen
    simp [topSort, hseen]
  · refine (List.perm_ext_iff_of_nodup hinv.seenNodup hkeys).2 ?_
    intro n
    constructor
    · exact hinv.seenKeys n
    · intro hn
      have : n ∈ names st.ds := (List.Perm.map _ hp).symm.subset hn
      exact hinv.dsSeen n this
  · intro d hd
    exact List.count_eq_one_of_mem hnd (hp.symm.subset hd)

/-- The map `fA`, `fB`, `fC` visited in the order `fC`, `fA`, `fB`. -/
theorem topSort_places_dependencies_first_witness :
    ((names [fA, fB, fC]).Nodup ∧ [fC, fA, fB].Perm [fA, fB, fC] ∧ Closed [fA, fB, fC] ∧
      Acyclic [fA, fB, fC]) ∧
    ∃ ds, linkageOrder [fC, fA, fB] [fA, fB, fC] = .ok ds ∧ ds.Perm [fA, fB, fC] ∧
      ∀ (i j : Nat) (hi : i < ds.length) (hj : j < ds.length),
        ds[j].name ∈ ds[i].dependency → j < i :=
  have hacyc : Acyclic [fA, fB, fC] := acyclic_of_rank sampleRank (by decide)
  ⟨⟨by decide, by decide, by decide, hacyc⟩,
    topSort_places_dependencies_first [fA, fB, fC] [fC, fA, fB] (by decide) (by decide)
      (by decide) hacyc⟩

/-- A map in which `fB` and `fC` name `a.proto`, which is not a key. -/
theorem topSort_panics_iff_missing_dependency_witness :
    linkageOrder [fC, fB] [fB, fC] = .error (.panic "not found: a.proto") ∧
    (∃ d ∈ [fB, fC], ∃ dep ∈ d.dependency, dep ∉ names [fB, fC]) ∧
    ∀ ds, linkageOrder [fC, fB] [fB, fC] ≠ .ok ds :=
  have h := topSort_panics_iff_missing_dependency [fB, fC] [fC, fB] (by decide) (by decide)
  ⟨rfl, h.1.1 ⟨_, rfl⟩, h.2.2 ⟨_, rfl⟩⟩

/-- Two descriptors that depend on each other, one of them also on itself. -/
theorem topSort_tolerates_cycles_witness :
    sortLoop 3 [cycX, cycY] [cycY, cycX] { seen := [], ds := [] } =
      .ok { seen := ["x.proto", "y.proto"], ds := [cycX, cycY] } ∧
    ∃ st, sortLoop ([cycX, cycY].length + 1) [cycX, cycY] [cycY, cycX]
        { seen := [], ds := [] } = .ok st ∧
      linkageOrder [cycY, cycX] [cycX, cycY] = .ok st.ds ∧
      (∀ (fuel : Nat) (d : FileDescriptorProto) (s : SortState), d.name ∈ s.seen →
        topSort (fuel + 1) [cycX, cycY] d s = .ok s) ∧
      st.seen.Nodup ∧ st.seen.Perm (names [cycX, cycY]) ∧
      st.ds.Perm [cycX, cycY] ∧ st.ds.Nodup ∧ ∀ d ∈ [cycX, cycY], st.ds.count d = 1 :=
  ⟨rfl, topSort_tolerates_cycles [cycX, cycY] [cycY, cycX] (by decide) (by decide)
    (by decide)⟩

/-! ## C3: the tool identifier -/

theorem map_dot_injective :
    ∀ (l1 l2 : List Char), '_' ∉ l1 → '_' ∉ l2 →
      l1.map (fun c => if c = '.' then '_' else c) =
        l2.map (fun c => if c = '.' then '_' else c) → l1 = l2 := by
  intro l1
  induction l1 with
  | nil =>
    intro l2 _ _ h
    cases l2 with
    | nil => rfl
    | cons b t => simp at h
  | cons a t ih =>
    intro l2 h1 h2 h
    cases l2 with
    | nil => simp at h
    | cons b t2 =>
      simp only [List.map_cons, List.cons.injEq] at h
      have ha : a ≠ '_' := fun hc => h1 (hc ▸ List.mem_cons_self _ _)
      have hb : b ≠ '_' := fun hc => h2 (hc ▸ List.mem_cons_self _ _)
      have hab : a = b := by
        have h0 := h.1
        by_cases ha1 : a = '.' <;> by_cases hb1 : b = '.'
        · rw [ha1, hb1]
        · simp only [ha1, hb1, if_true, if_false] at h0
          exact absurd h0.symm hb
        · simp only [ha1, hb1, if_true, if_false] at h0
          exact absurd h0 ha
        · simpa [ha1, hb1] using h0
      rw [hab, ih t2 (fun hc => h1 (List.mem_cons_of_mem _ hc))
        (fun hc => h2 (List.mem_cons_of_mem _ hc)) h.2]

theorem map_dot_id (l : List Char) (h : '.' ∉ l) :
    l.map (fun c => if c = '.' then '_' else c) = l := by
  induction l with
  | nil => rfl
  | cons a t ih =>
    have ha : a ≠ '.' := fun hc => h (hc ▸ List.mem_cons_self _ _)
    simp only [List.map_cons, ha, if_false]
    rw [ih (fun hc => h (List.mem_cons_of_mem _ hc))]

theorem toolName_data (s m : String) (hm : '.' ∉ m.data) :
    (toolName s m).data =
      s.data.map (fun c => if c = '.' then '_' else c) ++ '_' :: '_' :: m.data := by
  have h2 : "__".data = ['_', '_'] := rfl
  simp only [toolName, replaceAll, String.data_append, List.map_append, h2, List.map_cons,
    List.map_nil, map_dot_id m.data hm, ite_self, List.append_assoc, List.cons_append,
    List.nil_append]

/-- C3 as stated fails: the distinct pairs (`a.b`, `M`) and (`a_b`, `M`) get one
identifier. -/
theorem toolName_collision :
    (("a.b", "M") : String × String) ≠ ("a_b", "M") ∧
    toolName "a.b" "M" = toolName "a_b" "M" ∧
    mainLoop [] [collideDot, collideUnderscore] =
      .ok { reg := { files := [collideDot, collideUnderscore] },
            tools := [⟨"a_b__M", "/a.b/M"⟩, ⟨"a_b__M", "/a_b/M"⟩] } :=
  ⟨by decide, by decide, rfl⟩

theorem singleUnderscores_tail (c : Char) (l : List Char)
    (h : singleUnderscores (c :: l) = true) : singleUnderscores l = true := by
  cases l with
  | nil => rfl
  | cons d rest =>
    simp only [singleUnderscores, Bool.and_eq_true] at h
    exact h.2

theorem singleUnderscores_map (l : List Char) (hu : '_' ∉ l) (hd : dotted l = true) :
    singleUnderscores (l.map (fun c => if c = '.' then '_' else c)) = true := by
  induction l with
  | nil => rfl
  | cons c t ih =>
    have hc : c ≠ '_' := fun hc => hu (hc ▸ List.mem_cons_self _ _)
    have hut : '_' ∉ t := fun hx => hu (List.mem_cons_of_mem _ hx)
    cases t with
    | nil =>
      simp only [dotted, bne_iff_ne, ne_eq] at hd
      simp [singleUnderscores, hd, hc]
    | cons d rest =>
      simp only [dotted, Bool.and_eq_true, Bool.not_eq_true', Bool.and_eq_false_iff,
        beq_eq_false_iff_ne, ne_eq] at hd
      have hdc : d ≠ '_' := fun hx => hut (hx ▸ List.mem_cons_self _ _)
      have ih1 := ih hut hd.2
      simp only [List.map_cons] at ih1
      simp only [List.map_cons, singleUnderscores, Bool.and_eq_true, Bool.not_eq_true',
        Bool.and_eq_false_iff, beq_eq_false_iff_ne, ne_eq]
      refine ⟨?_, ih1⟩
      rcases hd.1 with h1 | h1
      · left
        simp [h1, hc]
      · right
        simp [h1, hdc]

/-- Two texts of that shape followed by `__` agree up to the `__` when the whole agrees. -/
theorem split_at_double_underscore :
    ∀ (A B X Y : List Char), singleUnderscores A = true → singleUnderscores B = true →
      A ++ '_' :: '_' :: X = B ++ '_' :: '_' :: Y → A = B ∧ X = Y := by
  intro A
  induction A with
  | nil =>
    intro B X Y _ hB h
    cases B with
    | nil => simpa using h
    | cons b B1 =>
      exfalso
      simp only [List.nil_append, List.cons_append, List.cons.injEq] at h
      obtain ⟨hb, h2⟩ := h
      subst hb
      cases B1 with
      | nil => simp [singleUnderscores] at hB
      | cons b1 B2 =>
        simp only [List.cons_append, List.cons.injEq] at h2
        obtain ⟨hb1, _⟩ := h2
        subst hb1
        simp [singleUnderscores] at hB
  | cons a A1 ih =>
    intro B X Y hA hB h
    cases B with
    | nil =>
      exfalso
      simp only [List.nil_append, List.cons_append, List.cons.injEq] at h
      obtain ⟨ha, h2⟩ := h
      subst ha
      cases A1 with
      | nil => simp [singleUnderscores] at hA
      | cons a1 A2 =>
        simp only [List.cons_append, List.cons.injEq] at h2
        obtain ⟨ha1, _⟩ := h2
        subst ha1
        simp [singleUnderscores] at hA
    | cons b B1 =>
      simp only [List.cons_append, List.cons.injEq] at h
      obtain ⟨hab, h2⟩ := h
      obtain ⟨h3, h4⟩ := ih B1 X Y (singleUnderscores_tail a A1 hA)
        (singleUnderscores_tail b B1 hB) h2
      exact ⟨by rw [hab, h3], h4⟩

/-- C3, amended.  The tool identifier `<service full name>__<method name>` with every
`.` replaced by `_` (method names are single identifiers, without `.`) differs for two
distinct (service full name, method name) pairs when the two are methods of one service,
and also when both service full names are dotted names that contain no underscore; full
names with an underscore can collide with dotted ones. -/
theorem toolName_distinct (s1 m1 s2 m2 : String)
    (hd1 : '.' ∉ m1.data) (hd2 : '.' ∉ m2.data)
    (hs : s1 = s2 ∨ ('_' ∉ s1.data ∧ '_' ∉ s2.data ∧
      dotted s1.data = true ∧ dotted s2.data = true))
    (hne : (s1, m1) ≠ (s2, m2)) : toolName s1 m1 ≠ toolName s2 m2 := by
  intro heq
  have hdata := congrArg String.data heq
  rw [toolName_data s1 m1 hd1, toolName_data s2 m2 hd2] at hdata
  rcases hs with hs | ⟨hu1, hu2, hv1, hv2⟩
  · subst hs
    have hm := List.append_cancel_left hdata
    simp only [List.cons.injEq, true_and] at hm
    exact hne (by rw [String.ext hm])
  · obtain ⟨h1, h2⟩ := split_at_double_underscore _ _ _ _
      (singleUnderscores_map _ hu1 hv1) (singleUnderscores_map _ hu2 hv2) hdata
    have hsEq : s1 = s2 := String.ext (map_dot_injective _ _ hu1 hu2 h1)
    have hmEq : m1 = m2 := String.ext h2
    exact hne (by rw [hsEq, hmEq])

/-- The services `pkg.Greeter` and `pkg.v1.Greeter` with a method of the same name. -/
theorem toolName_distinct_witness :
    toolName "pkg.Greeter" "SayHello" = "pkg_Greeter__SayHello" ∧
    toolName "pkg.Greeter" "Say_Bye" = "pkg_Greeter__Say_Bye" ∧
    toolName "pkg.v1.Greeter" "SayHello" = "pkg_v1_Greeter__SayHello" ∧
    toolName "pkg.Greeter" "SayHello" ≠ toolName "pkg.v1.Greeter" "SayHello" :=
  ⟨by decide, by decide, by decide,
    toolName_distinct "pkg.Greeter" "SayHello" "pkg.v1.Greeter" "SayHello"
      (by decide) (by decide) (Or.inr (by decide)) (by decide)⟩

/-! ## C4: the header merge -/

theorem lookup_filter_ne (h : Header) (k x : String) :
    (h.filter (fun e => e.1 != k)).lookup x = if x = k then none else h.lookup x := by
  induction h with
  | nil => simp
  | cons e t ih =>
    obtain ⟨a, b⟩ := e
    by_cases hak : a = k
    · subst hak
      by_cases hx : x = a
      · subst hx
        simpa using ih
      · have hxa : (x == a) = false := by simpa using hx
        simpa [List.lookup_cons, hxa, hx] using ih
    · have hf : List.filter (fun e : String × List String => e.1 != k) ((a, b) :: t) =
          (a, b) :: List.filter (fun e : String × List String => e.1 != k) t := by
        simp [List.filter_cons, hak]
      rw [hf, List.lookup_cons, List.lookup_cons, ih]
      by_cases hx : x = a
      · subst hx
        simp [hak]
      · have hxa : (x == a) = false := by simpa using hx
        simp [hxa]

theorem values_set (canon : String → String) (h : Header) (k v : String) :
    (Header.set canon h k v).values (canon k) = [v] := by
  simp [Header.set, Header.values, List.lookup_cons]

theorem lookup_set_ne (canon : String → String) (h : Header) (k v x : String)
    (hx : x ≠ canon k) : (Header.set canon h k v).lookup x = h.lookup x := by
  have hxa : (x == canon k) = false := by simpa using hx
  simp [Header.set, List.lookup_cons, hxa, lookup_filter_ne, hx]

theorem values_add (canon : String → String) (h : Header) (k v : String) :
    (Header.add canon h k v).values (canon k) = h.values (canon k) ++ [v] := by
  simp [Header.add, Header.values, List.lookup_cons]

theorem lookup_add_ne (canon : String → String) (h : Header) (k v x : String)
    (hx : x ≠ canon k) : (Header.add canon h k v).lookup x = h.lookup x := by
  have hxa : (x == canon k) = false := by simpa using hx
  simp [Header.add, List.lookup_cons, hxa, lookup_filter_ne, hx]

theorem values_del (canon : String → String) (h : Header) (k : String) :
    (Header.del canon h k).values (canon k) = [] := by
  simp [Header.del, Header.values, lookup_filter_ne]

theorem lookup_del_ne (canon : String → String) (h : Header) (k x : String)
    (hx : x ≠ canon k) : (Header.del canon h k).lookup x = h.lookup x := by
  simp [Header.del, lookup_filter_ne, hx]

theorem values_foldl_add (canon : String → String) (k : String) :
    ∀ (vs : List String) (h : Header),
      (vs.foldl (fun h v2 => Header.add canon h k v2) h).values (canon k) =
        h.values (canon k) ++ vs := by
  intro vs
  induction vs with
  | nil => simp
  | cons v t ih =>
    intro h
    rw [List.foldl_cons, ih, values_add]
    simp

theorem lookup_foldl_add_ne (canon : String → String) (k x : String) (hx : x ≠ canon k) :
    ∀ (vs : List String) (h : Header),
      (vs.foldl (fun h v2 => Header.add canon h k v2) h).lookup x = h.lookup x := by
  intro vs
  induction vs with
  | nil => simp
  | cons v t ih =>
    intro h
    rw [List.foldl_cons, ih, lookup_add_ne canon h k v x hx]

/-- One entry of the configured headers replaces whatever the request held for it. -/
theorem values_mergeEntry (canon : String → String) (req : Header) (k : String)
    (v : List String) : (mergeEntry canon req (k, v)).values (canon k) = v := by
  cases v with
  | nil => simp [mergeEntry, values_del]
  | cons a t =>
    cases t with
    | nil => simp [mergeEntry, values_set]
    | cons b t2 =>
      simp only [mergeEntry]
      rw [values_foldl_add, values_del]
      simp

/-- One entry of the configured headers leaves every other name alone. -/
theorem lookup_mergeEntry_ne (canon : String → String) (req : Header) (k : String)
    (v : List String) (x : String) (hx : x ≠ canon k) :
    (mergeEntry canon req (k, v)).lookup x = req.lookup x := by
  cases v with
  | nil => simp [mergeEntry, lookup_del_ne canon req k x hx]
  | cons a t =>
    cases t with
    | nil => simp [mergeEntry, lookup_set_ne canon req k a x hx]
    | cons b t2 =>
      simp only [mergeEntry]
      rw [lookup_foldl_add_ne canon k x hx, lookup_del_ne canon req k x hx]

theorem foldl_mergeEntry (canon : String → String) :
    ∀ (C H : Header), (Header.keys C).Nodup → (∀ k ∈ Header.keys C, canon k = k) →
      (∀ k v, (k, v) ∈ C → (C.foldl (mergeEntry canon) H).values k = v) ∧
      (∀ k, k ∉ Header.keys C → (C.foldl (mergeEntry canon) H).lookup k = H.lookup k) := by
  intro C
  induction C with
  | nil =>
    intro H _ _
    simp
  | cons e rest ih =>
    intro H hnd hcanon
    obtain ⟨k0, v0⟩ := e
    simp only [Header.keys, List.map_cons, List.nodup_cons] at hnd
    have hk0 : canon k0 = k0 := hcanon k0 (by simp [Header.keys])
    obtain ⟨ih1, ih2⟩ := ih (mergeEntry canon H (k0, v0)) hnd.2
      (fun k hk => hcanon k (by
        simp only [Header.keys, List.map_cons, List.mem_cons]
        exact Or.inr hk))
    refine ⟨?_, ?_⟩
    · intro k v hkv
      rcases List.mem_cons.1 hkv with heq | hmem
      · simp only [Prod.mk.injEq] at heq
        obtain ⟨rfl, rfl⟩ := heq
        have h2 := ih2 k hnd.1
        simp only [List.foldl_cons, Header.values, h2]
        have := values_mergeEntry canon H k v
        rw [hk0] at this
        exact this
      · exact ih1 k v hmem
    · intro k hk
      simp only [Header.keys, List.map_cons, List.mem_cons, not_or] at hk
      rw [List.foldl_cons, ih2 k hk.2]
      exact lookup_mergeEntry_ne canon H k0 v0 k (by rw [hk0]; exact hk.1)

theorem keys_filter_ne (h : Header) (k : String) :
    Header.keys (h.filter (fun e => e.1 != k)) = (Header.keys h).filter (fun x => x != k) := by
  induction h with
  | nil => rfl
  | cons e t ih =>
    have ih1 : List.map (fun e : String × List String => e.1)
        (List.filter (fun e => e.1 != k) t) =
        List.filter (fun x => x != k) (List.map (fun e => e.1) t) := ih
    by_cases hk : e.1 = k
    · simp [Header.keys, List.filter_cons, hk, ih1]
    · simp [Header.keys, List.filter_cons, hk, ih1]

theorem wellFormed_insert (canon : String → String) (hidem : ∀ k, canon (canon k) = canon k)
    (h : Header) (k : String) (v : List String) (hw : Header.WellFormed canon h) :
    Header.WellFormed canon ((canon k, v) :: h.filter (fun e => e.1 != canon k)) := by
  obtain ⟨hnd, hc⟩ := hw
  constructor
  · show (canon k :: Header.keys (h.filter (fun e => e.1 != canon k))).Nodup
    rw [keys_filter_ne, List.nodup_cons]
    refine ⟨?_, hnd.filter _⟩
    intro hmem
    have := (List.mem_filter.1 hmem).2
    simp at this
  · intro x hx
    change x ∈ canon k :: Header.keys (h.filter (fun e => e.1 != canon k)) at hx
    rcases List.mem_cons.1 hx with rfl | hx
    · exact hidem k
    · rw [keys_filter_ne] at hx
      exact hc x (List.mem_filter.1 hx).1

theorem headerFlagsAll_wellFormed (canon : String → String)
    (hidem : ∀ k, canon (canon k) = canon k) :
    ∀ (flags : List String) (h h1 : Header), Header.WellFormed canon h →
      headerFlagsAll canon flags h = .ok h1 → Header.WellFormed canon h1 := by
  intro flags
  induction flags with
  | nil =>
    intro h h1 hw hr
    simp only [headerFlagsAll, Except.ok.injEq] at hr
    exact hr ▸ hw
  | cons value rest ih =>
    intro h h1 hw hr
    simp only [headerFlagsAll] at hr
    cases hs : headerFlagsSet canon h value with
    | error e => simp [hs] at hr
    | ok h2 =>
      simp only [hs] at hr
      refine ih h2 h1 ?_ hr
      unfold headerFlagsSet at hs
      cases hcut : cutColon value.data with
      | none => simp [hcut] at hs
      | some p =>
        obtain ⟨k, v⟩ := p
        simp only [hcut, Except.ok.injEq] at hs
        rw [← hs]
        exact wellFormed_insert canon hidem h _ _ hw

/-- Every header set that main configures is a map with canonical names. -/
theorem configuredHeaders_wellFormed (canon : String → String)
    (hidem : ∀ k, canon (canon k) = canon k) (flags : List String)
    (bearer bearerEnv : String) (env : String → Option String) (C : Header)
    (h : configuredHeaders canon flags bearer bearerEnv env = .ok C) :
    (Header.keys C).Nodup ∧ ∀ k ∈ Header.keys C, canon k = k := by
  unfold configuredHeaders at h
  cases hf : headerFlagsAll canon flags [] with
  | error e => simp [hf] at h
  | ok h0 =>
    have hw0 : Header.WellFormed canon h0 :=
      headerFlagsAll_wellFormed canon hidem flags [] h0 ⟨by simp [Header.keys], by simp [Header.keys]⟩ hf
    simp only [hf] at h
    generalize (if bearerEnv ≠ "" then (env bearerEnv).getD "" else bearer) = b1 at h
    by_cases hb : b1 ≠ ""
    · rw [if_pos hb] at h
      cases h
      exact wellFormed_insert canon hidem h0 _ _ hw0
    · rw [if_neg hb] at h
      cases h
      exact hw0

/-- C4. The header merge of `toolHandler` replaces on conflict: for every request header
`H` and every configured header set `C` (a map, so its names are distinct, and built by
`Add` and `Set`, so its names are canonical), after the merge the request carries for
each name of `C` exactly the value list of `C`, and for each name not in `C` exactly
what `H` held. -/
theorem mergeHeaders_replaces (canon : String → String) (H C : Header)
    (hmap : (Header.keys C).Nodup) (hcanon : ∀ k ∈ Header.keys C, canon k = k) :
    (∀ k v, (k, v) ∈ C → (mergeHeaders canon C H).values k = v) ∧
    (∀ k, k ∉ Header.keys C → (mergeHeaders canon C H).lookup k = H.lookup k) := by
  unfold mergeHeaders
  by_cases hlen : C.length > 0
  · simp only [hlen, if_true]
    exact foldl_mergeEntry canon C H hmap hcanon
  · have hnil : C = [] := by
      cases C with
      | nil => rfl
      | cons e t => simp at hlen
    subst hnil
    simp

/-- The example of the specification, and a multi-valued entry built from flags. -/
theorem mergeHeaders_replaces_witness :
    mergeHeaders sampleCanon [("X-A", ["2"])] [("X-A", ["1"])] = [("X-A", ["2"])] ∧
    configuredHeaders sampleCanon ["X-C: 5", "x-a: 2", "x-a:3"] "" "" (fun _ => none) =
      .ok sampleMulti ∧
    mergeHeaders sampleCanon sampleMulti sampleBase =
      [("X-C", ["5"]), ("X-A", ["2", "3"]), ("X-B", ["9"])] ∧
    (∀ k v, (k, v) ∈ sampleMulti → (mergeHeaders sampleCanon sampleMulti sampleBase).values k = v) ∧
    (∀ k, k ∉ Header.keys sampleMulti →
      (mergeHeaders sampleCanon sampleMulti sampleBase).lookup k = sampleBase.lookup k) :=
  ⟨by decide, rfl, by decide,
    mergeHeaders_replaces sampleCanon sampleBase sampleMulti (by decide) (by decide)⟩

/-! ## C5: the handler -/

theorem toolHandler_encode_fails {Args Msg : Type} (canon : String → String)
    (jsonMarshal : Args → Except String String) (unmarshal : String → Except String Msg)
    (callUnary : Request Msg → Except String Msg) (marshal : Msg → Except String String)
    (headers : Header) (arguments : Args) (e : String)
    (h1 : jsonMarshal arguments = .error e) :
    toolHandler canon jsonMarshal unmarshal callUnary marshal headers arguments =
      { result := newToolResultError e, err := none, calls := [] } := by
  simp only [toolHandler, h1]

theorem toolHandler_decode_fails {Args Msg : Type} (canon : String → String)
    (jsonMarshal : Args → Except String String) (unmarshal : String → Except String Msg)
    (callUnary : Request Msg → Except String Msg) (marshal : Msg → Except String String)
    (headers : Header) (arguments : Args) (b e : String)
    (h1 : jsonMarshal arguments = .ok b) (h2 : unmarshal b = .error e) :
    toolHandler canon jsonMarshal unmarshal callUnary marshal headers arguments =
      { result := newToolResultError e, err := none, calls := [] } := by
  simp only [toolHandler, h1, h2]

theorem toolHandler_call_fails {Args Msg : Type} (canon : String → String)
    (jsonMarshal : Args → Except String String) (unmarshal : String → Except String Msg)
    (callUnary : Request Msg → Except String Msg) (marshal : Msg → Except String String)
    (headers : Header) (arguments : Args) (b e : String) (msg : Msg)
    (h1 : jsonMarshal arguments = .ok b) (h2 : unmarshal b = .ok msg)
    (h3 : callUnary { msg := msg, header := mergeHeaders canon headers [] } = .error e) :
    toolHandler canon jsonMarshal unmarshal callUnary marshal headers arguments =
      { result := newToolResultError e, err := none,
        calls := [{ msg := msg, header := mergeHeaders canon headers [] }] } := by
  simp only [toolHandler, h1, h2, h3]

theorem toolHandler_respond_fails {Args Msg : Type} (canon : String → String)
    (jsonMarshal : Args → Except String String) (unmarshal : String → Except String Msg)
    (callUnary : Request Msg → Except String Msg) (marshal : Msg → Except String String)
    (headers : Header) (arguments : Args) (b e : String) (msg resp : Msg)
    (h1 : jsonMarshal arguments = .ok b) (h2 : unmarshal b = .ok msg)
    (h3 : callUnary { msg := msg, header := mergeHeaders canon headers [] } = .ok resp)
    (h4 : marshal resp = .error e) :
    toolHandler canon jsonMarshal unmarshal callUnary marshal headers arguments =
      { result := newToolResultError e, err := none,
        calls := [{ msg := msg, header := mergeHeaders canon headers [] }] } := by
  simp only [toolHandler, h1, h2, h3, h4]

theorem toolHandler_succeeds {Args Msg : Type} (canon : String → String)
    (jsonMarshal : Args → Except String String) (unmarshal : String → Except String Msg)
    (callUnary : Request Msg → Except String Msg) (marshal : Msg → Except String String)
    (headers : Header) (arguments : Args) (b res : String) (msg resp : Msg)
    (h1 : jsonMarshal arguments = .ok b) (h2 : unmarshal b = .ok msg)
    (h3 : callUnary { msg := msg, header := mergeHeaders canon headers [] } = .ok resp)
    (h4 : marshal resp = .ok res) :
    toolHandler canon jsonMarshal unmarshal callUnary marshal headers arguments =
      { result := newToolResultText res, err := none,
        calls := [{ msg := msg, header := mergeHeaders canon headers [] }] } := by
  simp only [toolHandler, h1, h2, h3, h4]

/-- The outcome of the handler, step by step. -/
theorem toolHandler_steps {Args Msg : Type} (canon : String → String)
    (jsonMarshal : Args → Except String String) (unmarshal : String → Except String Msg)
    (callUnary : Request Msg → Except String Msg) (marshal : Msg → Except String String)
    (headers : Header) (arguments : Args) :
    (toolHandler canon jsonMarshal unmarshal callUnary marshal headers arguments).err = none ∧
    (toolHandler canon jsonMarshal unmarshal callUnary marshal headers arguments).calls.length
      ≤ 1 ∧
    (∀ e, jsonMarshal arguments = .error e →
      (toolHandler canon jsonMarshal unmarshal callUnary marshal headers arguments).result =
        { text := e, isError := true } ∧
      (toolHandler canon jsonMarshal unmarshal callUnary marshal headers arguments).calls =
        []) ∧
    (∀ b e, jsonMarshal arguments = .ok b → unmarshal b = .error e →
      (toolHandler canon jsonMarshal unmarshal callUnary marshal headers arguments).result =
        { text := e, isError := true } ∧
      (toolHandler canon jsonMarshal unmarshal callUnary marshal headers arguments).calls =
        []) ∧
    (∀ b msg, jsonMarshal arguments = .ok b → unmarshal b = .ok msg →
      (toolHandler canon jsonMarshal unmarshal callUnary marshal headers arguments).calls.map
          (fun r => (r.msg, r.header)) = [(msg, mergeHeaders canon headers [])] ∧
      (∀ e, callUnary { msg := msg, header := mergeHeaders canon headers [] } = .error e →
        (toolHandler canon jsonMarshal unmarshal callUnary marshal headers arguments).result =
          { text := e, isError := true }) ∧
      (∀ resp, callUnary { msg := msg, header := mergeHeaders canon headers [] } = .ok resp →
        (∀ e, marshal resp = .error e →
          (toolHandler canon jsonMarshal unmarshal callUnary marshal headers arguments).result
            = { text := e, isError := true }) ∧
        (∀ res, marshal resp = .ok res →
          (toolHandler canon jsonMarshal unmarshal callUnary marshal headers arguments).result
            = { text := res, isError := false }))) := by
  cases h1 : jsonMarshal arguments with
  | error e1 =>
    rw [toolHandler_encode_fails canon jsonMarshal unmarshal callUnary marshal headers
      arguments e1 h1]
    refine ⟨rfl, by simp, ?_, ?_, ?_⟩
    · intro e he
      cases he
      exact ⟨rfl, rfl⟩
    · intro b e hb
      cases hb
    · intro b m hb
      cases hb
  | ok b =>
    cases h2 : unmarshal b with
    | error e2 =>
      rw [toolHandler_decode_fails canon jsonMarshal unmarshal callUnary marshal headers
        arguments b e2 h1 h2]
      refine ⟨rfl, by simp, ?_, ?_, ?_⟩
      · intro e he
        cases he
      · intro b1 e hb hu
        cases hb
        rw [h2] at hu
        cases hu
        exact ⟨rfl, rfl⟩
      · intro b1 m hb hu
        cases hb
        rw [h2] at hu
        cases hu
    | ok msg =>
      cases h3 : callUnary { msg := msg, header := mergeHeaders canon headers [] } with
      | error e3 =>
        rw [toolHandler_call_fails canon jsonMarshal unmarshal callUnary marshal headers
          arguments b e3 msg h1 h2 h3]
        refine ⟨rfl, by simp, ?_, ?_, ?_⟩
        · intro e he
          cases he
        · intro b1 e hb hu
          cases hb
          rw [h2] at hu
          cases hu
        · intro b1 m hb hu
          cases hb
          rw [h2] at hu
          cases hu
          refine ⟨rfl, ?_, ?_⟩
          · intro e he
            rw [h3] at he
            cases he
            rfl
          · intro resp hr
            rw [h3] at hr
            cases hr
      | ok resp =>
        cases h4 : marshal resp with
        | error e4 =>
          rw [toolHandler_respond_fails canon jsonMarshal unmarshal callUnary marshal headers
            arguments b e4 msg resp h1 h2 h3 h4]
          refine ⟨rfl, by simp, ?_, ?_, ?_⟩
          · intro e he
            cases he
          · intro b1 e hb hu
            cases hb
            rw [h2] at hu
            cases hu
          · intro b1 m hb hu
            cases hb
            rw [h2] at hu
            cases hu
            refine ⟨rfl, ?_, ?_⟩
            · intro e he
              rw [h3] at he
              cases he
            · intro resp1 hr
              rw [h3] at hr
              cases hr
              refine ⟨?_, ?_⟩
              · intro e he
                rw [h4] at he
                cases he
                rfl
              · intro res he
                rw [h4] at he
                cases he
        | ok res =>
          rw [toolHandler_succeeds canon jsonMarshal unmarshal callUnary marshal headers
            arguments b res msg resp h1 h2 h3 h4]
          refine ⟨rfl, by simp, ?_, ?_, ?_⟩
          · intro e he
            cases he
          · intro b1 e hb hu
            cases hb
            rw [h2] at hu
            cases hu
          · intro b1 m hb hu
            cases hb
            rw [h2] at hu
            cases hu
            refine ⟨rfl, ?_, ?_⟩
            · intro e he
              rw [h3] at he
              cases he
            · intro resp1 hr
              rw [h3] at hr
              cases hr
              refine ⟨?_, ?_⟩
              · intro e he
                rw [h4] at he
                cases he
              · intro res1 he
                rw [h4] at he
                cases he
                rfl

/-- The result of the handler is flagged as an error exactly when one of the four steps
fails. -/
theorem toolHandler_isError_iff {Args Msg : Type} (canon : String → String)
    (jsonMarshal : Args → Except String String) (unmarshal : String → Except String Msg)
    (callUnary : Request Msg → Except String Msg) (marshal : Msg → Except String String)
    (headers : Header) (arguments : Args) :
    (toolHandler canon jsonMarshal unmarshal callUnary marshal headers
        arguments).result.isError = false ↔
      ∃ b msg resp res, jsonMarshal arguments = .ok b ∧ unmarshal b = .ok msg ∧
        callUnary { msg := msg, header := mergeHeaders canon headers [] } = .ok resp ∧
        marshal resp = .ok res := by
  cases h1 : jsonMarshal arguments with
  | error e1 =>
    rw [toolHandler_encode_fails canon jsonMarshal unmarshal callUnary marshal headers
      arguments e1 h1]
    simp [newToolResultError]
  | ok b =>
    cases h2 : unmarshal b with
    | error e2 =>
      rw [toolHandler_decode_fails canon jsonMarshal unmarshal callUnary marshal headers
        arguments b e2 h1 h2]
      simp [newToolResultError, h2]
    | ok msg =>
      cases h3 : callUnary { msg := msg, header := mergeHeaders canon headers [] } with
      | error e3 =>
        rw [toolHandler_call_fails canon jsonMarshal unmarshal callUnary marshal headers
          arguments b e3 msg h1 h2 h3]
        simp [newToolResultError, h2, h3]
      | ok resp =>
        cases h4 : marshal resp with
        | error e4 =>
          rw [toolHandler_respond_fails canon jsonMarshal unmarshal callUnary marshal headers
            arguments b e4 msg resp h1 h2 h3 h4]
          simp [newToolResultError, h2, h3, h4]
        | ok res =>
          rw [toolHandler_succeeds canon jsonMarshal unmarshal callUnary marshal headers
            arguments b res msg resp h1 h2 h3 h4]
          simp [newToolResultText, h2, h3, h4]

/-- C5. Every invocation of the handler returns a nil Go error.  Its result is the
error result carrying the message of the first step that fails, in the order argument
encoding, decoding into the request message, backend call, response encoding; when no
step fails it is the text result of the encoded response.  The backend is called at most
once, and not at all when argument encoding or decoding fails.  The result is flagged as
an error exactly when some step fails. -/
theorem toolHandler_outcomes {Args Msg : Type} (canon : String → String)
    (jsonMarshal : Args → Except String String) (unmarshal : String → Except String Msg)
    (callUnary : Request Msg → Except String Msg) (marshal : Msg → Except String String)
    (headers : Header) (arguments : Args) :
    ((toolHandler canon jsonMarshal unmarshal callUnary marshal headers arguments).err = none ∧
    (toolHandler canon jsonMarshal unmarshal callUnary marshal headers arguments).calls.length
      ≤ 1 ∧
    (∀ e, jsonMarshal arguments = .error e →
      (toolHandler canon jsonMarshal unmarshal callUnary marshal headers arguments).result =
        { text := e, isError := true } ∧
      (toolHandler canon jsonMarshal unmarshal callUnary marshal headers arguments).calls =
        []) ∧
    (∀ b e, jsonMarshal arguments = .ok b → unmarshal b = .error e →
      (toolHandler canon jsonMarshal unmarshal callUnary marshal headers arguments).result =
        { text := e, isError := true } ∧
      (toolHandler canon jsonMarshal unmarshal callUnary marshal headers arguments).calls =
        []) ∧
    (∀ b msg, jsonMarshal arguments = .ok b → unmarshal b = .ok msg →
      (toolHandler canon jsonMarshal unmarshal callUnary marshal headers arguments).calls.map
          (fun r => (r.msg, r.header)) = [(msg, mergeHeaders canon headers [])] ∧
      (∀ e, callUnary { msg := msg, header := mergeHeaders canon headers [] } = .error e →
        (toolHandler canon jsonMarshal unmarshal callUnary marshal headers arguments).result =
          { text := e, isError := true }) ∧
      (∀ resp, callUnary { msg := msg, header := mergeHeaders canon headers [] } = .ok resp →
        (∀ e, marshal resp = .error e →
          (toolHandler canon jsonMarshal unmarshal callUnary marshal headers arguments).result
            = { text := e, isError := true }) ∧
        (∀ res, marshal resp = .ok res →
          (toolHandler canon jsonMarshal unmarshal callUnary marshal headers arguments).result
            = { text := res, isError := false })))) ∧
    ((toolHandler canon jsonMarshal unmarshal callUnary marshal headers
        arguments).result.isError = false ↔
      ∃ b msg resp res, jsonMarshal arguments = .ok b ∧ unmarshal b = .ok msg ∧
        callUnary { msg := msg, header := mergeHeaders canon headers [] } = .ok resp ∧
        marshal resp = .ok res) :=
  ⟨toolHandler_steps canon jsonMarshal unmarshal callUnary marshal headers arguments,
    toolHandler_isError_iff canon jsonMarshal unmarshal callUnary marshal headers arguments⟩

/-- The scenario of the specification: the arguments name Ada and the backend greets;
empty arguments fail to decode and the backend is not called. -/
theorem toolHandler_outcomes_witness :
    (toolHandler sampleCanon sampleEncode sampleDecode sampleBackend sampleEncode
        sampleOverride adaArguments).result = { text := adaGreeting, isError := false } ∧
    (toolHandler sampleCanon sampleEncode sampleDecode sampleBackend sampleEncode
        sampleOverride "").result = { text := "unexpected end of input", isError := true } ∧
    (toolHandler sampleCanon sampleEncode sampleDecode sampleBackend sampleEncode
        sampleOverride "").calls = [] :=
  have h1 := toolHandler_outcomes sampleCanon sampleEncode sampleDecode sampleBackend
    sampleEncode sampleOverride adaArguments
  have h2 := toolHandler_outcomes sampleCanon sampleEncode sampleDecode sampleBackend
    sampleEncode sampleOverride ""
  ⟨((h1.1.2.2.2.2 adaArguments adaArguments rfl rfl).2.2 adaGreeting rfl).2 adaGreeting rfl,
    (h2.1.2.2.2.1 "" "unexpected end of input" rfl rfl).1,
    (h2.1.2.2.2.1 "" "unexpected end of input" rfl rfl).2⟩

/-! ## The projection loop -/

/-- The tool that line 252-257 of main.go builds for a method of a service. -/
theorem methodTools_eq (sFull : String) (ms : List MethodDescriptorProto) :
    methodTools sFull ms = (ms.filter
      (fun m => decide (m.clientStreaming = false ∧ m.serverStreaming = false))).map
      (fun m => { name := toolName sFull m.name, procedure := "/" ++ sFull ++ "/" ++ m.name }) := by
  induction ms with
  | nil => rfl
  | cons m rest ih =>
    by_cases h : (m.clientStreaming || m.serverStreaming) = true
    · have hu : decide (m.clientStreaming = false ∧ m.serverStreaming = false) = false := by
        rw [Bool.or_eq_true] at h
        rcases h with h | h <;> simp [h]
      simp only [methodTools, h, if_true, ih, List.filter_cons, hu]
      simp
    · have hu : decide (m.clientStreaming = false ∧ m.serverStreaming = false) = true := by
        simpa using h
      simp only [methodTools, h, if_false, ih, List.filter_cons, hu, if_true, List.map_cons]
      simp

theorem contains_false_iff (l : List String) (a : String) :
    l.contains a = false ↔ a ∉ l := by
  simp

theorem serviceTools_eq (servicesMap : List String) (package : String)
    (ss : List ServiceDescriptorProto) :
    serviceTools servicesMap package ss =
      (ss.filter
        (fun s => decide (servicesMap = [] ∨ fullName package s.name ∈ servicesMap))).flatMap
        (fun s => methodTools (fullName package s.name) s.method) := by
  induction ss with
  | nil => rfl
  | cons sv rest ih =>
    by_cases h : (decide (servicesMap.length > 0) &&
        !(servicesMap.contains (fullName package sv.name))) = true
    · have ha : decide (servicesMap = [] ∨ fullName package sv.name ∈ servicesMap) =
          false := by
        rw [Bool.and_eq_true, decide_eq_true_eq, Bool.not_eq_true', contains_false_iff] at h
        have hne : servicesMap ≠ [] := List.ne_nil_of_length_pos h.1
        rw [decide_eq_false_iff_not]
        rintro (h0 | h1)
        · exact hne h0
        · exact h.2 h1
      simp only [serviceTools, h, if_true, ih, List.filter_cons, ha]
      simp
    · have ha : decide (servicesMap = [] ∨ fullName package sv.name ∈ servicesMap) =
          true := by
        rw [Bool.and_eq_true, decide_eq_true_eq, Bool.not_eq_true', contains_false_iff] at h
        rw [decide_eq_true_eq]
        by_cases hnil : servicesMap = []
        · exact Or.inl hnil
        · right
          by_contra hnot
          exact h ⟨List.length_pos.2 hnil, hnot⟩
      simp only [serviceTools, h, if_false, ih, List.filter_cons, ha, if_true,
        List.flatMap_cons]
      simp

theorem newFile_ok {f r : FileDescriptorProto} {reg : Files} (h : newFile f reg = .ok r) :
    r = f := by
  unfold newFile at h
  cases hr : resolveImports reg [f.name] f.dependency with
  | error e => simp [hr] at h
  | ok u =>
    simp only [hr, Except.ok.injEq] at h
    exact h.symm

theorem linkStep_tools {servicesMap : List String} {st st1 : Linked}
    {f : FileDescriptorProto} (h : linkStep servicesMap st f = .ok st1) :
    st1.tools = st.tools ++ serviceTools servicesMap f.package f.service := by
  unfold linkStep at h
  cases hn : newFile f st.reg with
  | error e => simp [hn] at h
  | ok desc =>
    have hd := newFile_ok hn
    subst hd
    simp only [hn, Except.ok.injEq] at h
    rw [← h]

theorem linkFiles_tools {servicesMap : List String} :
    ∀ (files : List FileDescriptorProto) (st st1 : Linked),
      linkFiles servicesMap files st = .ok st1 →
      st1.tools = st.tools ++
        files.flatMap (fun f => serviceTools servicesMap f.package f.service) := by
  intro files
  induction files with
  | nil =>
    intro st st1 h
    simp only [linkFiles, Except.ok.injEq] at h
    subst h
    simp
  | cons f rest ih =>
    intro st st1 h
    simp only [linkFiles] at h
    cases hs : linkStep servicesMap st f with
    | error e => simp [hs] at h
    | ok sta =>
      simp only [hs] at h
      rw [ih sta st1 h, linkStep_tools hs]
      simp

/-- The calls of `srv.AddTool` made by a completed loop: one for each counted method of
each entry of the file list, in order. -/
theorem mainLoop_tools {servicesMap : List String} {files : List FileDescriptorProto}
    {out : Linked} (h : mainLoop servicesMap files = .ok out) :
    out.tools = (unaryMethods servicesMap files).map
      (fun p => { name := toolName p.1 p.2.name, procedure := "/" ++ p.1 ++ "/" ++ p.2.name }) := by
  have := linkFiles_tools files _ out h
  simp only [List.nil_append] at this
  rw [this, unaryMethods]
  simp only [List.flatMap_def, List.map_flatten, List.map_map]
  congr 1
  apply List.map_congr_left
  intro f _
  simp only [Function.comp, serviceTools_eq, List.flatMap_def, List.map_flatten, List.map_map]
  congr 1
  apply List.map_congr_left
  intro sv _
  simp only [Function.comp, methodTools_eq, List.map_map]
  rfl

/-! ## The registry -/

theorem findFileByPath_eq_lookup (reg : Files) (path : String) :
    reg.findFileByPath path = lookup reg.files path := rfl

theorem findFileByPath_isSome {reg : Files} {path : String} (h : path ∈ names reg.files) :
    ∃ v, reg.findFileByPath path = some v :=
  lookup_of_mem h

theorem findFileByPath_none {reg : Files} {path : String} (h : path ∉ names reg.files) :
    reg.findFileByPath path = none := by
  cases hl : reg.findFileByPath path with
  | none => rfl
  | some v =>
    obtain ⟨hv, hname⟩ := lookup_some hl
    exact absurd (List.mem_map.2 ⟨v, hv, hname⟩) h

/-- The imports resolve when every path is registered, none is in the import set yet
and none is listed twice. -/
theorem resolveImports_ok (reg : Files) :
    ∀ (deps imps : List String), (∀ d ∈ deps, d ∈ names reg.files) →
      (∀ d ∈ deps, d ∉ imps) → deps.Nodup → resolveImports reg imps deps = .ok () := by
  intro deps
  induction deps with
  | nil =>
    intro imps _ _ _
    rfl
  | cons d rest ih =>
    intro imps hreg himps hnd
    obtain ⟨v, hv⟩ := findFileByPath_isSome (hreg d (List.mem_cons_self _ _))
    have hd : d ∉ imps := himps d (List.mem_cons_self _ _)
    simp only [resolveImports, hv, hd, if_false]
    rw [List.nodup_cons] at hnd
    apply ih
    · exact fun x hx => hreg x (List.mem_cons_of_mem _ hx)
    · intro x hx hmem
      rcases List.mem_cons.1 hmem with heq | hmem
      · exact hnd.1 (heq ▸ hx)
      · exact himps x (List.mem_cons_of_mem _ hx) hmem
    · exact hnd.2

/-- Imports that resolve keep resolving when the registry grows. -/
theorem resolveImports_mono {reg reg1 : Files}
    (hsub : ∀ p, p ∈ names reg.files → p ∈ names reg1.files) :
    ∀ (deps imps : List String), resolveImports reg imps deps = .ok () →
      resolveImports reg1 imps deps = .ok () := by
  intro deps
  induction deps with
  | nil =>
    intro imps _
    rfl
  | cons d rest ih =>
    intro imps h
    simp only [resolveImports] at h
    cases hf : reg.findFileByPath d with
    | none => simp [hf] at h
    | some v =>
      simp only [hf] at h
      obtain ⟨hv, hname⟩ := lookup_some hf
      obtain ⟨v1, hv1⟩ := findFileByPath_isSome (hsub d (List.mem_map.2 ⟨v, hv, hname⟩))
      by_cases hd : d ∈ imps
      · simp [hd] at h
      · simp only [hd, if_false] at h
        simp only [resolveImports, hv1, hd, if_false]
        exact ih _ h

theorem newFile_of_resolve {f : FileDescriptorProto} {reg : Files}
    (h : resolveImports reg [f.name] f.dependency = .ok ()) : newFile f reg = .ok f := by
  simp only [newFile, h]

theorem resolve_of_newFile {f r : FileDescriptorProto} {reg : Files}
    (h : newFile f reg = .ok r) : resolveImports reg [f.name] f.dependency = .ok () := by
  unfold newFile at h
  cases hr : resolveImports reg [f.name] f.dependency with
  | error e => simp [hr] at h
  | ok u => rfl

/-- The refusals of `RegisterFile` on a registry that holds `greeterFile`: a registered
path, a declaration declared already, a package named like a declaration, a declaration
named like a package; and a file that meets none of these is registered at the end. -/
theorem registerFile_refusals :
    Files.registerFile { files := [greeterFile] } greeterFileV2 =
      .error "file greeter.proto is already registered" ∧
    Files.registerFile { files := [greeterFile] } greeterAgain =
      .error "file again.proto has a name conflict" ∧
    Files.registerFile { files := [greeterFile] } nestedPackage =
      .error "file nested.proto has a package name conflict" ∧
    Files.registerFile { files := [greeterFile] } shadowPackage =
      .error "file shadow.proto has a name conflict" ∧
    Files.registerFile { files := [greeterFile] } fA = .ok { files := [greeterFile, fA] } ∧
    registerIfAbsent { files := [greeterFile] } nestedPackage = { files := [greeterFile] } ∧
    registerIfAbsent { files := [greeterFile] } shadowPackage = { files := [greeterFile] } ∧
    registerIfAbsent { files := [greeterFile] } fA = { files := [greeterFile, fA] } :=
  ⟨rfl, rfl, rfl, rfl, rfl, rfl, rfl, rfl⟩

theorem registerIfAbsent_present {reg : Files} {f : FileDescriptorProto}
    (h : f.name ∈ names reg.files) : registerIfAbsent reg f = reg := by
  obtain ⟨v, hv⟩ := findFileByPath_isSome h
  simp only [registerIfAbsent, hv]

/-- The registry after lines 217-219 is the registry before, or the registry before with
the file added at the end, its path being new. -/
theorem registerIfAbsent_cases (reg : Files) (f : FileDescriptorProto) :
    registerIfAbsent reg f = reg ∨
      (f.name ∉ names reg.files ∧ registerIfAbsent reg f = { files := reg.files ++ [f] }) := by
  by_cases hmem : f.name ∈ names reg.files
  · exact Or.inl (registerIfAbsent_present hmem)
  · have hnone := findFileByPath_none hmem
    simp only [registerIfAbsent, hnone]
    cases hr : reg.registerFile f with
    | error e => exact Or.inl rfl
    | ok reg1 =>
      right
      refine ⟨hmem, ?_⟩
      simp only [Files.registerFile, hnone, Option.isSome_none] at hr
      split at hr
      · cases hr
      · split at hr
        · cases hr
        · split at hr
          · cases hr
          · cases hr
            rfl

/-- A file of a new path whose names meet nothing in the registry is registered. -/
theorem registerIfAbsent_new {reg : Files} {f : FileDescriptorProto}
    (hnew : f.name ∉ names reg.files)
    (hpkg : ∀ n ∈ packageNames f.package, n ∉ reg.declared)
    (hdecl : ∀ n ∈ declaredNames f, n ∉ reg.declared ∧ n ∉ reg.packages) :
    registerIfAbsent reg f = { files := reg.files ++ [f] } := by
  have hnone := findFileByPath_none hnew
  have h1 : (packageNames f.package).any (fun n => decide (n ∈ reg.declared)) = false := by
    rw [List.any_eq_false]
    intro n hn
    simpa using hpkg n hn
  have h2 : (declaredNames f).any
      (fun n => decide (n ∈ reg.declared) || decide (n ∈ reg.packages)) = false := by
    rw [List.any_eq_false]
    intro n hn
    obtain ⟨ha, hb⟩ := hdecl n hn
    simp [ha, hb]
  simp [registerIfAbsent, hnone, Files.registerFile, h1, h2]

theorem linkStep_eq (servicesMap : List String) (st : Linked) {f : FileDescriptorProto}
    (hres : newFile f st.reg = .ok f) :
    linkStep servicesMap st f = .ok
      { reg := registerIfAbsent st.reg f,
        tools := st.tools ++ serviceTools servicesMap f.package f.service } := by
  simp only [linkStep, hres]

theorem linkStep_inv {servicesMap : List String} {st st1 : Linked}
    {f : FileDescriptorProto} (h : linkStep servicesMap st f = .ok st1) :
    newFile f st.reg = .ok f ∧ st1.reg = registerIfAbsent st.reg f ∧
      st1.tools = st.tools ++ serviceTools servicesMap f.package f.service := by
  cases hn : newFile f st.reg with
  | error e => simp [linkStep, hn] at h
  | ok desc =>
    have hd := newFile_ok hn
    subst hd
    rw [linkStep_eq servicesMap st hn] at h
    cases h
    exact ⟨rfl, rfl, rfl⟩

theorem linkStep_regOk {servicesMap : List String} {st st1 : Linked}
    {f : FileDescriptorProto} (hok : RegOk st.reg) (h : linkStep servicesMap st f = .ok st1) :
    RegOk st1.reg ∧ (∀ p, p ∈ names st.reg.files → p ∈ names st1.reg.files) ∧
      (∀ g ∈ st1.reg.files, g ∈ st.reg.files ∨ g = f) := by
  obtain ⟨hn, hreg, _⟩ := linkStep_inv h
  rcases registerIfAbsent_cases st.reg f with hc | ⟨hnew, hc⟩
  · rw [hc] at hreg
    rw [hreg]
    exact ⟨hok, fun _ hp => hp, fun g hg => Or.inl hg⟩
  · rw [hc] at hreg
    rw [hreg]
    have hsub : ∀ p, p ∈ names st.reg.files →
        p ∈ names ({ files := st.reg.files ++ [f] } : Files).files := by
      intro p hp
      show p ∈ names (st.reg.files ++ [f])
      rw [names_append]
      exact List.mem_append_left _ hp
    refine ⟨⟨?_, ?_⟩, hsub, ?_⟩
    · show (names (st.reg.files ++ [f])).Nodup
      rw [names_append]
      refine List.Nodup.append hok.nodup (by simp [names]) ?_
      intro n hn1 hn2
      simp only [names, List.map_cons, List.map_nil, List.mem_singleton] at hn2
      subst hn2
      exact hnew hn1
    · intro x hx
      change x ∈ st.reg.files ++ [f] at hx
      rcases List.mem_append.1 hx with hx | hx
      · exact resolveImports_mono hsub _ _ (hok.resolved x hx)
      · rw [List.mem_singleton] at hx
        subst hx
        exact resolveImports_mono hsub _ _ (resolve_of_newFile hn)
    · intro g hg
      change g ∈ st.reg.files ++ [f] at hg
      rcases List.mem_append.1 hg with hg | hg
      · exact Or.inl hg
      · exact Or.inr (List.mem_singleton.1 hg)

theorem linkFiles_regOk {servicesMap : List String} :
    ∀ (files : List FileDescriptorProto) (st st1 : Linked), RegOk st.reg →
      linkFiles servicesMap files st = .ok st1 →
      RegOk st1.reg ∧ (∀ p, p ∈ names st.reg.files → p ∈ names st1.reg.files) ∧
        ∀ g ∈ st1.reg.files, g ∈ st.reg.files ∨ g ∈ files := by
  intro files
  induction files with
  | nil =>
    intro st st1 hok h
    simp only [linkFiles, Except.ok.injEq] at h
    subst h
    exact ⟨hok, fun _ hp => hp, fun g hg => Or.inl hg⟩
  | cons f rest ih =>
    intro st st1 hok h
    simp only [linkFiles] at h
    cases hs : linkStep servicesMap st f with
    | error e => simp [hs] at h
    | ok sta =>
      simp only [hs] at h
      obtain ⟨hoka, hsuba, hfa⟩ := linkStep_regOk hok hs
      obtain ⟨hok1, hsub1, hrest⟩ := ih sta st1 hoka h
      refine ⟨hok1, fun p hp => hsub1 p (hsuba p hp), ?_⟩
      intro g hg
      rcases hrest g hg with h1 | h1
      · rcases hfa g h1 with h2 | h2
        · exact Or.inl h2
        · exact Or.inr (h2 ▸ List.mem_cons_self _ _)
      · exact Or.inr (List.mem_cons_of_mem _ h1)

theorem regOk_empty : RegOk { files := [] } :=
  ⟨by simp [names], by simp⟩

/-- An import that is not registered makes the import loop fail. -/
theorem resolveImports_missing (reg : Files) (dep : String) (hdep : dep ∉ names reg.files) :
    ∀ (deps imps : List String), dep ∈ deps →
      ∃ e, resolveImports reg imps deps = .error e := by
  intro deps
  induction deps with
  | nil =>
    intro imps h
    simp at h
  | cons d rest ih =>
    intro imps h
    simp only [resolveImports]
    cases hf : reg.findFileByPath d with
    | none => exact ⟨_, rfl⟩
    | some v =>
      by_cases hd : d ∈ imps
      · exact ⟨"already imported " ++ d, by simp [hd]⟩
      · simp only [hd, if_false]
        rcases List.mem_cons.1 h with heq | hmem
        · obtain ⟨hv, hname⟩ := lookup_some hf
          exact absurd (List.mem_map.2 ⟨v, hv, hname⟩) (heq ▸ hdep)
        · exact ih _ hmem

theorem linkStep_error_is_panic {servicesMap : List String} {st : Linked}
    {f : FileDescriptorProto} {e : Fault} (h : linkStep servicesMap st f = .error e) :
    ∃ msg, e = .panic msg := by
  unfold linkStep at h
  cases hn : newFile f st.reg with
  | error e1 =>
    simp only [hn, Except.error.injEq] at h
    exact ⟨e1, h.symm⟩
  | ok desc => simp [hn] at h

/-- A list with a file ahead of one of its dependencies does not link: the loop
panics. -/
theorem linkFiles_misordered (servicesMap : List String) :
    ∀ (p pre : List FileDescriptorProto) (x : FileDescriptorProto)
      (q : List FileDescriptorProto) (st : Linked) (dep : String),
      (∀ g ∈ st.reg.files, g ∈ pre) → dep ∈ x.dependency →
      dep ∉ names (pre ++ p) →
      ∃ msg, linkFiles servicesMap (p ++ x :: q) st = .error (.panic msg) := by
  intro p
  induction p with
  | nil =>
    intro pre x q st dep hreg hdep hmiss
    rw [List.append_nil] at hmiss
    have hnot : dep ∉ names st.reg.files := by
      intro hc
      obtain ⟨g, hg, hname⟩ := List.mem_map.1 hc
      exact hmiss (List.mem_map.2 ⟨g, hreg g hg, hname⟩)
    obtain ⟨e, he⟩ := resolveImports_missing st.reg dep hnot x.dependency [x.name] hdep
    refine ⟨e, ?_⟩
    simp [linkFiles, linkStep, newFile, he]
  | cons y p1 ih =>
    intro pre x q st dep hreg hdep hmiss
    simp only [List.cons_append, linkFiles]
    cases hs : linkStep servicesMap st y with
    | error e =>
      obtain ⟨msg, rfl⟩ := linkStep_error_is_panic hs
      exact ⟨msg, rfl⟩
    | ok sta =>
      simp only []
      apply ih (pre ++ [y]) x q sta dep _ hdep (by simpa using hmiss)
      intro g hg
      obtain ⟨_, hreg1, _⟩ := linkStep_inv hs
      rw [hreg1] at hg
      rcases registerIfAbsent_cases st.reg y with hc | ⟨_, hc⟩
      · rw [hc] at hg
        exact List.mem_append_left _ (hreg g hg)
      · rw [hc] at hg
        change g ∈ st.reg.files ++ [y] at hg
        rcases List.mem_append.1 hg with h1 | h1
        · exact List.mem_append_left _ (hreg g h1)
        · exact List.mem_append_right _ h1

/-- A list in dependency order, with distinct file names, no dependency listed twice and
no conflict of names, links file by file, and every file is registered. -/
theorem linkFiles_depOrdered (servicesMap : List String) :
    ∀ (rest pre : List FileDescriptorProto) (tools : List Tool),
      (names (pre ++ rest)).Nodup → DepOrdered (pre ++ rest) →
      (∀ f ∈ rest, f.dependency.Nodup) → NoConflict (pre ++ rest) →
      ∃ tools1, linkFiles servicesMap rest { reg := { files := pre }, tools := tools } =
        .ok { reg := { files := pre ++ rest }, tools := tools1 } := by
  intro rest
  induction rest with
  | nil =>
    intro pre tools _ _ _ _
    exact ⟨tools, by simp [linkFiles]⟩
  | cons f rest ih =>
    intro pre tools hnd hord hdeps hconf
    have hnew : f.name ∉ names pre := by
      rw [names_append] at hnd
      intro hc
      exact (List.nodup_append.1 hnd).2.2 hc (by simp [names])
    have hin : ∀ d ∈ f.dependency, d ∈ names pre := hord pre f rest rfl
    have hres : newFile f { files := pre } = .ok f := by
      apply newFile_of_resolve
      apply resolveImports_ok _ _ _ hin
      · intro d hd hmem
        rw [List.mem_singleton] at hmem
        exact hnew (hmem ▸ hin d hd)
      · exact hdeps f (List.mem_cons_self _ _)
    obtain ⟨hcn, hcp⟩ := hconf
    simp only [List.flatMap_append, List.flatMap_cons] at hcn hcp
    have hdisj : ∀ n ∈ declaredNames f, n ∉ pre.flatMap declaredNames := by
      intro n hn hc
      exact (List.nodup_append.1 hcn).2.2 hc (List.mem_append_left _ hn)
    have hreg : registerIfAbsent { files := pre } f = { files := pre ++ [f] } := by
      apply registerIfAbsent_new hnew
      · intro n hn hc
        have hc1 : n ∈ pre.flatMap declaredNames := hc
        exact (hcp n (List.mem_append_left _ hc1)).2
          (List.mem_append_right _ (List.mem_append_left _ hn))
      · intro n hn
        refine ⟨hdisj n hn, ?_⟩
        have hall := hcp n (List.mem_append_right _ (List.mem_append_left _ hn))
        intro hc
        change n ∈ "" :: pre.flatMap (fun f => packageNames f.package) at hc
        rcases List.mem_cons.1 hc with h0 | h0
        · exact hall.1 h0
        · exact hall.2 (List.mem_append_left _ h0)
    have hstep := linkStep_eq servicesMap { reg := { files := pre }, tools := tools } hres
    simp only [hreg] at hstep
    obtain ⟨tools1, h1⟩ := ih (pre ++ [f])
      (tools ++ serviceTools servicesMap f.package f.service)
      (by simpa using hnd) (by simpa using hord)
      (fun x hx => hdeps x (List.mem_cons_of_mem _ hx))
      (by
        refine ⟨?_, ?_⟩
        · simpa [List.flatMap_append] using hcn
        · simpa [List.flatMap_append] using hcp)
    refine ⟨tools1, ?_⟩
    simp only [linkFiles, hstep]
    simpa using h1

theorem linkFiles_snoc (servicesMap : List String) (f : FileDescriptorProto) :
    ∀ (files : List FileDescriptorProto) (st out : Linked),
      linkFiles servicesMap files st = .ok out →
      linkFiles servicesMap (files ++ [f]) st = linkStep servicesMap out f := by
  intro files
  induction files with
  | nil =>
    intro st out h
    simp only [linkFiles, Except.ok.injEq] at h
    subst h
    simp only [List.nil_append, linkFiles]
    cases linkStep servicesMap st f <;> rfl
  | cons g rest ih =>
    intro st out h
    simp only [linkFiles] at h
    simp only [List.cons_append, linkFiles]
    cases hs : linkStep servicesMap st g with
    | error e => simp [hs] at h
    | ok sta =>
      simp only [hs] at h
      exact ih sta out h

/-! ## Files that the loop has processed -/

/-- A file whose package or declarations meet a name of the registry is refused, and
lines 217-219 leave the registry as it is. -/
theorem registerIfAbsent_conflict {reg : Files} {f : FileDescriptorProto}
    (h : (∃ n ∈ packageNames f.package, n ∈ reg.declared) ∨
      ∃ n ∈ declaredNames f, n ∈ reg.declared ∨ n ∈ reg.packages) :
    registerIfAbsent reg f = reg := by
  by_cases hmem : f.name ∈ names reg.files
  · exact registerIfAbsent_present hmem
  · have hnone := findFileByPath_none hmem
    simp only [registerIfAbsent, hnone, Files.registerFile, Option.isSome_none]
    rcases h with ⟨n, hn, hd⟩ | ⟨n, hn, hd⟩
    · have h1 : (packageNames f.package).any (fun n => decide (n ∈ reg.declared)) = true :=
        List.any_eq_true.2 ⟨n, hn, by simpa using hd⟩
      simp [h1]
    · have h2 : (declaredNames f).any
          (fun n => decide (n ∈ reg.declared) || decide (n ∈ reg.packages)) = true :=
        List.any_eq_true.2 ⟨n, hn, by simpa using hd⟩
      by_cases h1 : (packageNames f.package).any (fun n => decide (n ∈ reg.declared)) = true
      · simp [h1]
      · simp [h1, h2]

/-- When lines 217-219 leave the registry as it is, the path of the file is registered or
the file meets a name of the registry. -/
theorem registerIfAbsent_kept {reg : Files} {f : FileDescriptorProto}
    (h : registerIfAbsent reg f = reg) :
    f.name ∈ names reg.files ∨ (∃ n ∈ packageNames f.package, n ∈ reg.declared) ∨
      ∃ n ∈ declaredNames f, n ∈ reg.declared ∨ n ∈ reg.packages := by
  by_cases hmem : f.name ∈ names reg.files
  · exact Or.inl hmem
  · right
    by_contra hno
    push_neg at hno
    have hnew := registerIfAbsent_new hmem (fun n hn => hno.1 n hn) (fun n hn => hno.2 n hn)
    rw [h] at hnew
    have hlen := congrArg (fun r : Files => r.files.length) hnew
    simp at hlen

/-- A file that lines 217-219 would not add stays so when the registry grows. -/
theorem registerIfAbsent_kept_mono {reg reg1 : Files} {f : FileDescriptorProto}
    (hsub : ∀ g ∈ reg.files, g ∈ reg1.files) (h : registerIfAbsent reg f = reg) :
    registerIfAbsent reg1 f = reg1 := by
  have hdecl : ∀ n, n ∈ reg.declared → n ∈ reg1.declared := by
    intro n hn
    simp only [Files.declared, List.mem_flatMap] at hn ⊢
    obtain ⟨g, hg, hn⟩ := hn
    exact ⟨g, hsub g hg, hn⟩
  have hpkg : ∀ n, n ∈ reg.packages → n ∈ reg1.packages := by
    intro n hn
    simp only [Files.packages, List.mem_cons, List.mem_flatMap] at hn ⊢
    rcases hn with hn | ⟨g, hg, hn⟩
    · exact Or.inl hn
    · exact Or.inr ⟨g, hsub g hg, hn⟩
  rcases registerIfAbsent_kept h with hname | ⟨n, hn, hd⟩ | ⟨n, hn, hd⟩
  · obtain ⟨g, hg, hgn⟩ := List.mem_map.1 hname
    exact registerIfAbsent_present (List.mem_map.2 ⟨g, hsub g hg, hgn⟩)
  · exact registerIfAbsent_conflict (Or.inl ⟨n, hn, hdecl n hd⟩)
  · exact registerIfAbsent_conflict (Or.inr ⟨n, hn, hd.imp (hdecl n) (hpkg n)⟩)

/-- Lines 217-219 a second time on the same file change nothing. -/
theorem registerIfAbsent_idem (reg : Files) (f : FileDescriptorProto) :
    registerIfAbsent (registerIfAbsent reg f) f = registerIfAbsent reg f := by
  rcases registerIfAbsent_cases reg f with hc | ⟨_, hc⟩
  · rw [hc, hc]
  · rw [hc]
    exact registerIfAbsent_present (by simp [names])

/-- Every file that a completed loop has gone through would go through once more without
an error and without a change of the registry. -/
theorem linkFiles_settled {servicesMap : List String} :
    ∀ (files done : List FileDescriptorProto) (st st1 : Linked),
      (∀ f ∈ done, newFile f st.reg = .ok f ∧ registerIfAbsent st.reg f = st.reg) →
      linkFiles servicesMap files st = .ok st1 →
      ∀ f, f ∈ done ∨ f ∈ files →
        newFile f st1.reg = .ok f ∧ registerIfAbsent st1.reg f = st1.reg := by
  intro files
  induction files with
  | nil =>
    intro done st st1 hdone h f hf
    simp only [linkFiles, Except.ok.injEq] at h
    subst h
    rcases hf with hf | hf
    · exact hdone f hf
    · simp at hf
  | cons x rest ih =>
    intro done st st1 hdone h f hf
    simp only [linkFiles] at h
    cases hs : linkStep servicesMap st x with
    | error e => simp [hs] at h
    | ok sta =>
      simp only [hs] at h
      obtain ⟨hn, hreg, _⟩ := linkStep_inv hs
      have hfiles : ∀ g ∈ st.reg.files, g ∈ sta.reg.files := by
        intro g hg
        rw [hreg]
        rcases registerIfAbsent_cases st.reg x with hc | ⟨_, hc⟩
        · rw [hc]
          exact hg
        · rw [hc]
          exact List.mem_append_left _ hg
      have hnames : ∀ p, p ∈ names st.reg.files → p ∈ names sta.reg.files := by
        intro p hp
        obtain ⟨g, hg, hgn⟩ := List.mem_map.1 hp
        exact List.mem_map.2 ⟨g, hfiles g hg, hgn⟩
      have hstep : ∀ g, g ∈ x :: done →
          newFile g sta.reg = .ok g ∧ registerIfAbsent sta.reg g = sta.reg := by
        intro g hg
        rcases List.mem_cons.1 hg with hg | hg
        · subst hg
          refine ⟨newFile_of_resolve (resolveImports_mono hnames _ _ (resolve_of_newFile hn)),
            ?_⟩
          rw [hreg]
          exact registerIfAbsent_idem st.reg g
        · obtain ⟨h1, h2⟩ := hdone g hg
          exact ⟨newFile_of_resolve (resolveImports_mono hnames _ _ (resolve_of_newFile h1)),
            registerIfAbsent_kept_mono hfiles h2⟩
      apply ih (x :: done) sta st1 hstep h f
      rcases hf with hf | hf
      · exact Or.inl (List.mem_cons_of_mem _ hf)
      · rcases List.mem_cons.1 hf with hf | hf
        · exact Or.inl (hf ▸ List.mem_cons_self _ _)
        · exact Or.inr hf

/-! ## The tools of the server -/

theorem mem_names_addTool (tools : List Tool) (t : Tool) (n : String) :
    n ∈ (addTool tools t).map (fun u => u.name) ↔
      n ∈ tools.map (fun u => u.name) ∨ n = t.name := by
  unfold addTool
  rw [List.map_append, List.mem_append]
  constructor
  · rintro (h | h)
    · obtain ⟨u, hu, rfl⟩ := List.mem_map.1 h
      exact Or.inl (List.mem_map.2 ⟨u, (List.mem_filter.1 hu).1, rfl⟩)
    · right
      simpa using h
  · rintro (h | h)
    · obtain ⟨u, hu, rfl⟩ := List.mem_map.1 h
      by_cases hut : u.name = t.name
      · right
        simp [hut]
      · left
        exact List.mem_map.2 ⟨u, List.mem_filter.2 ⟨hu, by simpa using hut⟩, rfl⟩
    · right
      simp [h]

theorem mem_names_foldl_addTool :
    ∀ (calls tools : List Tool) (n : String),
      n ∈ (calls.foldl addTool tools).map (fun u => u.name) ↔
        n ∈ tools.map (fun u => u.name) ∨ n ∈ calls.map (fun u => u.name) := by
  intro calls
  induction calls with
  | nil => simp
  | cons t rest ih =>
    intro tools n
    rw [List.foldl_cons, ih, mem_names_addTool]
    simp only [List.map_cons, List.mem_cons]
    tauto

theorem length_foldl_addTool :
    ∀ (calls tools : List Tool),
      (calls.foldl addTool tools).length ≤ tools.length + calls.length := by
  intro calls
  induction calls with
  | nil => simp
  | cons t rest ih =>
    intro tools
    rw [List.foldl_cons]
    have h1 := ih (addTool tools t)
    have h2 : (addTool tools t).length ≤ tools.length + 1 := by
      simp only [addTool, List.length_append, List.length_cons, List.length_nil]
      have := List.length_filter_le (fun u : Tool => u.name != t.name) tools
      omega
    simp only [List.length_cons]
    omega

theorem foldl_addTool_of_nodup :
    ∀ (calls tools : List Tool), ((tools ++ calls).map (fun u => u.name)).Nodup →
      calls.foldl addTool tools = tools ++ calls := by
  intro calls
  induction calls with
  | nil => simp
  | cons t rest ih =>
    intro tools hnd
    have hkeep : tools.filter (fun u => u.name != t.name) = tools := by
      rw [List.filter_eq_self]
      intro u hu
      simp only [bne_iff_ne, ne_eq]
      intro hut
      simp only [List.map_append, List.map_cons] at hnd
      have := (List.nodup_append.1 hnd).2.2 (List.mem_map.2 ⟨u, hu, rfl⟩)
        (by rw [hut]; exact List.mem_cons_self _ _)
      exact this
    have hadd : addTool tools t = tools ++ [t] := by simp only [addTool, hkeep]
    rw [List.foldl_cons, hadd, ih (tools ++ [t]) (by simpa using hnd)]
    simp

/-- The tools that the loop adds for one file are those of its counted methods. -/
theorem serviceTools_counted (servicesMap : List String) (f : FileDescriptorProto) :
    serviceTools servicesMap f.package f.service = (unaryMethods servicesMap [f]).map toolOf := by
  have h1 : unaryMethods servicesMap [f] =
      (f.service.filter
        (fun s => decide (servicesMap = [] ∨ fullName f.package s.name ∈ servicesMap))).flatMap
        (fun s => (s.method.filter
          (fun m => decide (m.clientStreaming = false ∧ m.serverStreaming = false))).map
          (fun m => (fullName f.package s.name, m))) := by
    simp [unaryMethods]
  rw [h1, serviceTools_eq]
  simp only [List.flatMap_def, List.map_flatten, List.map_map]
  congr 1
  apply List.map_congr_left
  intro sv _
  simp only [Function.comp, methodTools_eq, List.map_map]
  rfl

theorem unaryMethods_mono (servicesMap : List String) {f : FileDescriptorProto}
    {files : List FileDescriptorProto} (hf : f ∈ files) :
    ∀ p ∈ unaryMethods servicesMap [f], p ∈ unaryMethods servicesMap files := by
  intro p hp
  simp only [unaryMethods, List.mem_flatMap, List.mem_singleton] at hp
  obtain ⟨g, rfl, hp⟩ := hp
  simp only [unaryMethods, List.mem_flatMap]
  exact ⟨g, hf, hp⟩

/-! ## C2: the number of tools -/

/-- C2 as stated fails: the loop also projects an entry whose name is registered already,
so `srv.AddTool` is called for two tools, which the server keeps both, while the one
registered file has one counted method. -/
theorem projection_counts_unregistered_entry :
    mainLoop [] [greeterFile, greeterFileV2] =
      .ok { reg := { files := [greeterFile] }, tools := [sayHelloTool, resetTool] } ∧
    serverTools [sayHelloTool, resetTool] = [sayHelloTool, resetTool] ∧
    (unaryMethods [] [greeterFile]).length = 1 :=
  ⟨rfl, rfl, rfl⟩

/-- C2, amended.  When the loop of main completes on a file list with an allow-list, the
calls of `srv.AddTool` it makes are, in order, one for each method with both streaming
flags false in the services that pass the allow-list (empty, or holding the full name of
the service), over every entry of the file list, whether or not the entry is registered.
So the number of calls is the number of these methods, every call comes from such a
method, a method with a streaming flag set gets none, and an allow-list that names no
service of the files leaves the server without tools.  The server keeps one tool for a
name: it holds at most that many tools, and exactly the tools of the calls when their
identifiers are distinct.  The registered files are entries of the list, no name twice;
when every entry is registered, the number of calls is the number of these methods over
the registered files. -/
theorem projection_count (servicesMap : List String) (files : List FileDescriptorProto)
    (out : Linked) (h : mainLoop servicesMap files = .ok out) :
    out.tools = (unaryMethods servicesMap files).map toolOf ∧
    out.tools.length = (unaryMethods servicesMap files).length ∧
    (∀ t ∈ out.tools, ∃ f ∈ files, ∃ sv ∈ f.service, ∃ m ∈ sv.method,
      m.clientStreaming = false ∧ m.serverStreaming = false ∧
      (servicesMap = [] ∨ fullName f.package sv.name ∈ servicesMap) ∧
      t = { name := toolName (fullName f.package sv.name) m.name,
            procedure := "/" ++ fullName f.package sv.name ++ "/" ++ m.name }) ∧
    (servicesMap ≠ [] →
      (∀ f ∈ files, ∀ sv ∈ f.service, fullName f.package sv.name ∉ servicesMap) →
      out.tools = [] ∧ serverTools out.tools = []) ∧
    (serverTools out.tools).length ≤ (unaryMethods servicesMap files).length ∧
    ((out.tools.map (fun t => t.name)).Nodup → serverTools out.tools = out.tools) ∧
    (∀ g ∈ out.reg.files, g ∈ files) ∧ (names out.reg.files).Nodup ∧
    (out.reg.files = files →
      out.tools.length = (unaryMethods servicesMap out.reg.files).length) := by
  have htools : out.tools = (unaryMethods servicesMap files).map toolOf := mainLoop_tools h
  have hlen : out.tools.length = (unaryMethods servicesMap files).length := by
    rw [htools, List.length_map]
  have hmem : ∀ p ∈ unaryMethods servicesMap files, ∃ f ∈ files, ∃ sv ∈ f.service,
      ∃ m ∈ sv.method, m.clientStreaming = false ∧ m.serverStreaming = false ∧
      (servicesMap = [] ∨ fullName f.package sv.name ∈ servicesMap) ∧
      p = (fullName f.package sv.name, m) := by
    intro p hp
    simp only [unaryMethods, List.mem_flatMap, List.mem_filter, List.mem_map,
      decide_eq_true_eq] at hp
    obtain ⟨f, hf, sv, ⟨hsv, hallow⟩, m, ⟨hm, hun⟩, rfl⟩ := hp
    exact ⟨f, hf, sv, hsv, m, hm, hun.1, hun.2, hallow, rfl⟩
  obtain ⟨hok, _, hsub⟩ := linkFiles_regOk files _ out regOk_empty h
  refine ⟨htools, hlen, ?_, ?_, ?_, ?_, ?_, hok.nodup, fun he => he ▸ hlen⟩
  · intro t ht
    rw [htools] at ht
    obtain ⟨p, hp, rfl⟩ := List.mem_map.1 ht
    obtain ⟨f, hf, sv, hsv, m, hm, h1, h2, h3, rfl⟩ := hmem p hp
    exact ⟨f, hf, sv, hsv, m, hm, h1, h2, h3, rfl⟩
  · intro hne hnone
    have hempty : unaryMethods servicesMap files = [] := by
      apply List.eq_nil_iff_forall_not_mem.2
      intro p hp
      obtain ⟨f, hf, sv, hsv, m, _, _, _, h3, _⟩ := hmem p hp
      rcases h3 with h0 | h1
      · exact hne h0
      · exact hnone f hf sv hsv h1
    rw [htools, hempty]
    exact ⟨rfl, rfl⟩
  · rw [← hlen]
    have := length_foldl_addTool out.tools []
    simpa [serverTools] using this
  · intro hnd
    have := foldl_addTool_of_nodup out.tools [] (by simpa using hnd)
    simpa [serverTools] using this
  · intro g hg
    rcases hsub g hg with h1 | h1
    · simp at h1
    · exact h1

/-- The scenario of the specification, where `SayHello` gives the one tool and the
streaming `Chat` none; and a list whose second file declares `pkg.Greeter` again, which
is not registered and still projected, and a third file that depends on it. -/
theorem projection_count_witness :
    mainLoop (servicesMapOf "pkg.Greeter,pkg.Other") [fA, greeterFile] =
      .ok { reg := { files := [fA, greeterFile] }, tools := [sayHelloTool] } ∧
    [sayHelloTool].length =
      (unaryMethods (servicesMapOf "pkg.Greeter,pkg.Other") [fA, greeterFile]).length ∧
    mainLoop [] [greeterFile, greeterAgain] =
      .ok { reg := { files := [greeterFile] }, tools := [sayHelloTool, sayHelloTool] } ∧
    [sayHelloTool, sayHelloTool] = (unaryMethods [] [greeterFile, greeterAgain]).map toolOf ∧
    serverTools [sayHelloTool, sayHelloTool] = [sayHelloTool] ∧
    (∃ msg, mainLoop [] [greeterFile, greeterAgain, usesAgain] = .error (.panic msg)) :=
  ⟨rfl, (projection_count (servicesMapOf "pkg.Greeter,pkg.Other") [fA, greeterFile] _ rfl).2.1,
    rfl, (projection_count [] [greeterFile, greeterAgain] _ rfl).1, rfl, ⟨_, rfl⟩⟩

/-! ## C6: the order of a static bundle -/

theorem noConflict_perm {xs ys : List FileDescriptorProto} (hp : xs.Perm ys)
    (h : NoConflict xs) : NoConflict ys := by
  have hd : (xs.flatMap declaredNames).Perm (ys.flatMap declaredNames) :=
    List.Perm.flatMap_right _ hp
  have hk : (xs.flatMap (fun f => packageNames f.package)).Perm
      (ys.flatMap (fun f => packageNames f.package)) := List.Perm.flatMap_right _ hp
  refine ⟨hd.nodup_iff.1 h.1, ?_⟩
  intro n hn
  obtain ⟨h1, h2⟩ := h.2 n (hd.mem_iff.2 hn)
  exact ⟨h1, fun hc => h2 (hk.mem_iff.2 hc)⟩

/-- The discovery mode links in whatever order the map is visited: the output of
`topSort` over a closed acyclic map is in dependency order, so the loop registers it
file by file, when no file lists a dependency twice and no names conflict. -/
theorem reflect_mode_links (servicesMap : List String)
    (all order : List FileDescriptorProto) (hkeys : (names all).Nodup)
    (horder : order.Perm all) (hclosed : Closed all) (hacyclic : Acyclic all)
    (hdeps : ∀ f ∈ all, f.dependency.Nodup) (hconf : NoConflict all) :
    ∃ ds o, startup true (.ok (order, all)) "" (.error "unused") servicesMap = .ok o ∧
      linkageOrder order all = .ok ds ∧ o.reg.files = ds ∧ ds.Perm all := by
  obtain ⟨st, hst⟩ := sortLoop_closed horder hclosed
  obtain ⟨hinv, _, hp⟩ := sortLoop_done hkeys horder hst
  have hord : DepOrdered st.ds :=
    sortLoop_order hacyclic order _ st (fun d hd => horder.subset hd) (inv_init all)
      (by simp [InProgress]) depOrdered_nil hst
  have hlink : linkageOrder order all = .ok st.ds := by simp [linkageOrder, hst]
  obtain ⟨t, ht⟩ := linkFiles_depOrdered servicesMap st.ds [] []
    (by simpa using hinv.dsNodup) (by simpa using hord)
    (fun f hf => hdeps f (hp.subset hf)) (by simpa using noConflict_perm hp.symm hconf)
  simp only [List.nil_append] at ht
  refine ⟨st.ds, { reg := { files := st.ds }, tools := t }, ?_, hlink, rfl, hp⟩
  simp only [startup, acquire, acquireWith, hlink, if_true]
  simpa [mainLoop] using ht

/-- Every static bundle that lists a file ahead of one of its dependencies aborts the
startup, whatever else it holds. -/
theorem static_bundle_misordered_panics (servicesMap : List String)
    (bundle : List FileDescriptorProto) (descriptors : String) (hflag : descriptors ≠ "")
    (hnot : ¬ DepOrdered bundle) :
    ∃ msg, startup false (.error "unused") descriptors (.ok (.ok bundle)) servicesMap =
      .error (.panic msg) := by
  unfold DepOrdered at hnot
  push_neg at hnot
  obtain ⟨pre, x, post, hsplit, dep, hdep, hmiss⟩ := hnot
  have hacq : acquire false (.error "unused") descriptors (.ok (.ok bundle)) = .ok bundle := by
    simp [acquire, acquireWith, hflag, protoUnmarshal]
  simp only [startup, hacq, mainLoop]
  rw [hsplit]
  exact linkFiles_misordered servicesMap pre [] x post _ dep (by simp) hdep
    (by simpa using hmiss)

/-- C6.  The code at the failing input: the files `fA` and `fB` have distinct names and
form a closed acyclic graph; the reflect branch sorts them and links them in whatever
order it visits them, but the static bundle that lists `fB` before `fA` is linked as it
stands and aborts the startup, while the bundle in the other order links. -/
theorem static_bundle_order_matters :
    (names [fA, fB]).Nodup ∧ Closed [fA, fB] ∧ Acyclic [fA, fB] ∧
    [fB, fA].Perm [fA, fB] ∧
    acquire false (.error "unused") "bundle.binpb" (.ok (.ok [fB, fA])) = .ok [fB, fA] ∧
    (∃ msg, startup false (.error "unused") "bundle.binpb" (.ok (.ok [fB, fA])) [] =
      .error (.panic msg)) ∧
    startup false (.error "unused") "bundle.binpb" (.ok (.ok [fA, fB])) [] =
      .ok { reg := { files := [fA, fB] }, tools := [] } ∧
    startup true (.ok ([fB, fA], [fA, fB])) "" (.error "unused") [] =
      .ok { reg := { files := [fA, fB] }, tools := [] } :=
  ⟨by decide, by decide, acyclic_of_rank sampleRank (by decide), by decide, rfl,
    ⟨_, rfl⟩, rfl, rfl⟩

/-! ## C7: both acquisition modes -/

/-- C7 as stated fails: with both modes enabled, discovery yields `fA` and the bundle
holds `greeterFile`; the file list that is linked is the bundle alone, without `fA`. -/
theorem acquire_drops_discovered_files :
    linkageOrder [fA] [fA] = .ok [fA] ∧
    acquire true (.ok ([fA], [fA])) "bundle.binpb" (.ok (.ok [greeterFile])) =
      .ok [greeterFile] ∧
    fA ∉ [greeterFile] ∧
    startup true (.ok ([fA], [fA])) "bundle.binpb" (.ok (.ok [greeterFile])) [] =
      .ok { reg := { files := [greeterFile] }, tools := [sayHelloTool] } :=
  ⟨rfl, rfl, by decide, rfl⟩

/-- Were the bundle decoded with `Merge` set, both sources would be in the list. -/
theorem acquireWith_merge (order all ds files : List FileDescriptorProto)
    (descriptors : String) (hflag : descriptors ≠ "")
    (hsort : linkageOrder order all = .ok ds) :
    acquireWith true true (.ok (order, all)) descriptors (.ok (.ok files)) =
      .ok (ds ++ files) := by
  simp [acquireWith, hsort, hflag, protoUnmarshal]

/-- C7, amended.  When both discovery and a static bundle are enabled and both succeed,
the file list that is linked into the registry is exactly the file list of the bundle,
the same list as with the bundle alone: decoding the bundle resets the list, so a
discovered file descriptor is linked only if the bundle holds it too. -/
theorem acquire_both_is_bundle (order all ds files : List FileDescriptorProto)
    (descriptors : String) (hflag : descriptors ≠ "")
    (hsort : linkageOrder order all = .ok ds) :
    acquire true (.ok (order, all)) descriptors (.ok (.ok files)) = .ok files ∧
    acquire false (.ok (order, all)) descriptors (.ok (.ok files)) = .ok files ∧
    (∀ f, f ∈ files → ∀ fds, acquire true (.ok (order, all)) descriptors (.ok (.ok files)) =
      .ok fds → f ∈ fds) := by
  have h1 : acquire true (.ok (order, all)) descriptors (.ok (.ok files)) = .ok files := by
    simp [acquire, acquireWith, hsort, hflag, protoUnmarshal]
  refine ⟨h1, by simp [acquire, acquireWith, hflag, protoUnmarshal], ?_⟩
  intro f hf fds hfds
  rw [h1] at hfds
  cases hfds
  exact hf

/-- Discovery finds `fA` and `fB`, the bundle holds `greeterFile`. -/
theorem acquire_both_is_bundle_witness :
    acquire true (.ok ([fB, fA], [fA, fB])) "bundle.binpb" (.ok (.ok [greeterFile])) =
      .ok [greeterFile] :=
  (acquire_both_is_bundle [fB, fA] [fA, fB] [fA, fB] [greeterFile] "bundle.binpb"
    (by decide) rfl).1

/-! ## C8: a name that is registered already -/

/-- C8 as stated fails: a later file under the registered name `greeter.proto` leaves the
registry alone but has the tool of its own method added, which the server keeps beside
the first; and for a second copy of `greeterFile` the loop calls `srv.AddTool` a second
time. -/
theorem duplicate_name_still_projected :
    mainLoop [] [greeterFile] =
      .ok { reg := { files := [greeterFile] }, tools := [sayHelloTool] } ∧
    linkStep [] { reg := { files := [greeterFile] }, tools := [sayHelloTool] } greeterFileV2 =
      .ok { reg := { files := [greeterFile] }, tools := [sayHelloTool, resetTool] } ∧
    serverTools [sayHelloTool] = [sayHelloTool] ∧
    serverTools [sayHelloTool, resetTool] = [sayHelloTool, resetTool] ∧
    mainLoop [] [greeterFile, greeterFile] =
      .ok { reg := { files := [greeterFile] }, tools := [sayHelloTool, sayHelloTool] } :=
  ⟨rfl, rfl, rfl, rfl, rfl⟩

/-- C8, amended.  After the loop has completed on any file list, no name is registered
twice.  When the list goes on with one more file whose name is registered, processing it
leaves the registry unchanged whenever it raises no error.  When the list goes on with a
copy of one of its files, processing the copy raises no error and leaves the registry
unchanged.  The services of such a file are still projected: `srv.AddTool` is called for
each of its counted methods.  For a copy of a file of the list these calls replace tools
of the same names, so the server holds tools of the same names as before; a file that
differs from the registered one of its name can add tools. -/
theorem duplicate_file_keeps_registry (servicesMap : List String)
    (files : List FileDescriptorProto) (out : Linked)
    (h : mainLoop servicesMap files = .ok out) :
    (names out.reg.files).Nodup ∧
    (∀ f out1, f.name ∈ names out.reg.files →
      mainLoop servicesMap (files ++ [f]) = .ok out1 →
      out1.reg = out.reg ∧
      out1.tools = out.tools ++ (unaryMethods servicesMap [f]).map toolOf) ∧
    (∀ f ∈ files,
      mainLoop servicesMap (files ++ [f]) = .ok
        { reg := out.reg, tools := out.tools ++ (unaryMethods servicesMap [f]).map toolOf } ∧
      ∀ n, n ∈ (serverTools
            (out.tools ++ (unaryMethods servicesMap [f]).map toolOf)).map (fun t => t.name) ↔
          n ∈ (serverTools out.tools).map (fun t => t.name)) := by
  obtain ⟨hok, _, _⟩ := linkFiles_regOk files _ out regOk_empty h
  have hsnoc : ∀ f, mainLoop servicesMap (files ++ [f]) = linkStep servicesMap out f :=
    fun f => linkFiles_snoc servicesMap f files _ out h
  have hkept : ∀ f, newFile f out.reg = .ok f → registerIfAbsent out.reg f = out.reg →
      linkStep servicesMap out f = .ok
        { reg := out.reg,
          tools := out.tools ++ (unaryMethods servicesMap [f]).map toolOf } := by
    intro f hn hr
    rw [linkStep_eq servicesMap out hn, hr, serviceTools_counted]
  refine ⟨hok.nodup, ?_, ?_⟩
  · intro f out1 hname hstep
    rw [hsnoc f] at hstep
    obtain ⟨hn, _, _⟩ := linkStep_inv hstep
    rw [hkept f hn (registerIfAbsent_present hname)] at hstep
    cases hstep
    exact ⟨rfl, rfl⟩
  · intro f hf
    obtain ⟨hn, hr⟩ := linkFiles_settled files [] _ out (by simp) h f (Or.inr hf)
    refine ⟨?_, ?_⟩
    · rw [hsnoc f]
      exact hkept f hn hr
    · intro n
      have htools : out.tools = (unaryMethods servicesMap files).map toolOf := mainLoop_tools h
      simp only [serverTools, mem_names_foldl_addTool, List.map_nil, List.not_mem_nil,
        false_or, List.map_append, List.mem_append]
      constructor
      · rintro (h1 | h1)
        · exact h1
        · obtain ⟨t, ht, rfl⟩ := List.mem_map.1 h1
          obtain ⟨p, hp, rfl⟩ := List.mem_map.1 ht
          rw [htools]
          exact List.mem_map.2
            ⟨toolOf p, List.mem_map.2 ⟨p, unaryMethods_mono servicesMap hf p hp, rfl⟩, rfl⟩
      · exact fun h1 => Or.inl h1

/-- A second copy of `greeterAgain`, which was refused for declaring `pkg.Greeter` again,
at the end of the list: no error, the registry stays, `srv.AddTool` is called once more,
and the server holds the one tool as before. -/
theorem duplicate_file_keeps_registry_witness :
    mainLoop [] [fA, greeterFile, greeterAgain] =
      .ok { reg := { files := [fA, greeterFile] },
            tools := [sayHelloTool, sayHelloTool] } ∧
    mainLoop [] ([fA, greeterFile, greeterAgain] ++ [greeterAgain]) =
      .ok { reg := { files := [fA, greeterFile] },
            tools := [sayHelloTool, sayHelloTool, sayHelloTool] } ∧
    serverTools [sayHelloTool, sayHelloTool, sayHelloTool] = [sayHelloTool] ∧
    serverTools [sayHelloTool, sayHelloTool] = [sayHelloTool] ∧
    mainLoop [] ([fA, greeterFile, greeterAgain] ++ [greeterFile]) =
      .ok { reg := { files := [fA, greeterFile] },
            tools := [sayHelloTool, sayHelloTool, sayHelloTool] } ∧
    (mainLoop [] ([fA, greeterFile, greeterAgain] ++ [greeterAgain]) =
      .ok { reg := { files := [fA, greeterFile] },
            tools := [sayHelloTool, sayHelloTool] ++
              (unaryMethods [] [greeterAgain]).map toolOf } ∧
      ∀ n, n ∈ (serverTools
            ([sayHelloTool, sayHelloTool] ++ (unaryMethods [] [greeterAgain]).map toolOf)).map
              (fun t => t.name) ↔
          n ∈ (serverTools [sayHelloTool, sayHelloTool]).map (fun t => t.name)) :=
  ⟨rfl, rfl, rfl, rfl, rfl,
    (duplicate_file_keeps_registry [] [fA, greeterFile, greeterAgain]
      { reg := { files := [fA, greeterFile] }, tools := [sayHelloTool, sayHelloTool] } rfl).2.2
      greeterAgain (by decide)⟩

end Grpcmcp
